import Mathlib

set_option maxRecDepth 8000

/-!
Verification of the reactive dataflow engine and the filtering logic of the
`shinyconf2025-scalable_apps` repository.

The repository's two applications (`app-01.py`, `app-05c-modules.py`) consist of
declarative glue around a reactive computation engine (mutable Cells, memoized
Nodes with dynamic dependency tracking, cycle detection, and namespaced module
instances).  The engine itself is supplied by the framework and is therefore
modelled here from the specification; the dataframe-filtering functions
(`create_ui_filters`, `get_filtered_data`) are translated from the source.
-/

namespace React

/-- Modelled from the spec: fully-qualified identifiers of the form
`instanceId/localName` are represented as component paths (the textual join
with `/` is injective on slash-free components), so a namespace qualification
is a `cons` of the instance id. -/
abbrev Id := List String

/-- Modelled from the spec (§3): a reactive Cell holds a value and a revision
counter. -/
structure Cell (V : Type) where
  value : V
  revision : Nat
deriving DecidableEq, Repr

/-- Modelled from the spec (§4.2, §9): compute functions are opaque pure
functions that read Cells and Nodes through the recording scope.  We embed
them as a small expression language whose reads are explicit, which is what
the recording-scope interception observes. -/
inductive Expr (V : Type) where
  | const (v : V)
  | readCell (id : Id)
  | readNode (id : Id)
  | app (f : V → V) (a : Expr V)
  | app2 (f : V → V → V) (a b : Expr V)
  | branch (c : Expr V) (p : V → Bool) (t e : Expr V)
  | failE (msg : String)

/-- Modelled from the spec (§3): a computed Node: compute function, cached
value, per-dependency revisions recorded at last evaluation, dirty flag.
The `revision` counter is bumped on every recomputation so that a Node can
itself serve as a recorded dependency; `callCount` is the compute-invocation
counter the spec asks memoization to be verified with (§8). -/
structure Node (V : Type) where
  compute : Expr V
  cachedValue : Option V := none
  cachedDeps : List (Id × Nat) := []
  dirty : Bool := true
  revision : Nat := 0
  callCount : Nat := 0

/-- Modelled from the spec (§3): the graph owns all Cells and Nodes, keyed by
fully-qualified id. -/
structure Graph (V : Type) where
  cells : List (Id × Cell V) := []
  nodes : List (Id × Node V) := []

/-- First-match lookup in an association list keyed by `Id`. -/
def findIn {α : Type _} (id : Id) : List (Id × α) → Option α
  | [] => none
  | (i, a) :: t => if i = id then some a else findIn id t

/-- Update the first binding of `id` (if any), leaving the rest unchanged. -/
def updateIn {α : Type _} (id : Id) (f : α → α) : List (Id × α) → List (Id × α)
  | [] => []
  | (i, a) :: t => if i = id then (i, f a) :: t else (i, a) :: updateIn id f t

def Graph.findCell {V : Type} (g : Graph V) (id : Id) : Option (Cell V) :=
  findIn id g.cells

def Graph.findNode {V : Type} (g : Graph V) (id : Id) : Option (Node V) :=
  findIn id g.nodes

def Graph.updateNode {V : Type} (g : Graph V) (id : Id) (f : Node V → Node V) : Graph V :=
  { g with nodes := updateIn id f g.nodes }

/-- Modelled from the spec (§4.1): `set(newValue)` replaces the value and
increments the revision unconditionally (no equality short-circuit). -/
def Graph.setCell {V : Type} (g : Graph V) (id : Id) (v : V) : Graph V :=
  { g with cells := updateIn id (fun c => { value := v, revision := c.revision + 1 }) g.cells }

/-- Current revision of a dependency: a Cell's revision counter, or a Node's. -/
def Graph.revOf {V : Type} (g : Graph V) (d : Id) : Option Nat :=
  match g.findCell d with
  | some c => some c.revision
  | none => (g.findNode d).map (fun n => n.revision)

/-- Modelled from the spec (§7): the error taxonomy. `outOfFuel` is an
artifact of the fuel-indexed evaluator; the theorems show it does not occur
at sufficient fuel. -/
inductive RErr where
  | cyclicDependency (ids : List Id)
  | computeFailure (msg : String)
  | unknownBinding (id : Id)
  | outOfFuel
deriving DecidableEq, Repr

deriving instance DecidableEq for Except

/-- The type of the node-read operation handed to the evaluation helpers:
given the graph, the stack of in-progress node ids, and a node id, produce
the updated graph and the node's value or an error. -/
abbrev GetFn (V : Type) := Graph V → List Id → Id → Graph V × Except RErr V

/-- Modelled from the spec (§4.2): evaluate a compute expression inside a
recording scope.  `deps` accumulates the `(dependencyId, revisionAtRead)`
pairs observed so far; a read of an inner Node records only that Node (at its
post-read revision), never the inner Node's own transitive dependencies. -/
def evalExpr {V : Type} (getFn : GetFn V) (g : Graph V) (stack : List Id)
    (deps : List (Id × Nat)) : Expr V → Graph V × Except RErr (V × List (Id × Nat))
  | .const v => (g, .ok (v, deps))
  | .readCell id =>
    match g.findCell id with
    | none => (g, .error (.unknownBinding id))
    | some c => (g, .ok (c.value, deps ++ [(id, c.revision)]))
  | .readNode id =>
    match getFn g stack id with
    | (g', .error e) => (g', .error e)
    | (g', .ok v) =>
      match g'.findNode id with
      | none => (g', .error (.unknownBinding id))
      | some n => (g', .ok (v, deps ++ [(id, n.revision)]))
  | .app f a =>
    match evalExpr getFn g stack deps a with
    | (g', .error e) => (g', .error e)
    | (g', .ok (v, d)) => (g', .ok (f v, d))
  | .app2 f a b =>
    match evalExpr getFn g stack deps a with
    | (g', .error e) => (g', .error e)
    | (g', .ok (va, d)) =>
      match evalExpr getFn g' stack d b with
      | (g'', .error e) => (g'', .error e)
      | (g'', .ok (vb, d')) => (g'', .ok (f va vb, d'))
  | .branch c p t e =>
    match evalExpr getFn g stack deps c with
    | (g', .error err) => (g', .error err)
    | (g', .ok (vc, d)) =>
      if p vc then evalExpr getFn g' stack d t else evalExpr getFn g' stack d e
  | .failE msg => (g, .error (.computeFailure msg))

/-- Modelled from the spec (§4.3 step 1, §4.4 strategy b): check whether every
recorded dependency's current revision equals the revision cached at last
evaluation.  Node dependencies are pulled (refreshed) first, so "current"
means up to date as of this read.  Returns `true` iff all match. -/
def checkDeps {V : Type} (getFn : GetFn V) (g : Graph V) (stack : List Id) :
    List (Id × Nat) → Graph V × Except RErr Bool
  | [] => (g, .ok true)
  | (d, r) :: rest =>
    match g.findCell d with
    | some c =>
      if c.revision = r then checkDeps getFn g stack rest else (g, .ok false)
    | none =>
      match g.findNode d with
      | none => (g, .ok false)
      | some _ =>
        match getFn g stack d with
        | (g', .error e) => (g', .error e)
        | (g', .ok _) =>
          match g'.findNode d with
          | none => (g', .ok false)
          | some n' =>
            if n'.revision = r then checkDeps getFn g' stack rest else (g', .ok false)

/-- Modelled from the spec (§4.3 step 2 and error clause): re-run `compute`
inside a fresh recording scope.  The dirty flag is set and the invocation
counter bumped on entry; on success the dependency set and per-dependency
revisions are replaced with the freshly observed ones, the result cached,
`dirty` cleared and the Node's revision bumped; on failure the cache and
recorded dependencies are left at their previous state with `dirty` set. -/
def recompute {V : Type} (getFn : GetFn V) (g : Graph V) (stack : List Id) (id : Id) :
    Graph V × Except RErr V :=
  match g.findNode id with
  | none => (g, .error (.unknownBinding id))
  | some n =>
    match evalExpr getFn
        (g.updateNode id (fun m => { m with dirty := true, callCount := m.callCount + 1 }))
        (id :: stack) [] n.compute with
    | (g2, .error e) => (g2, .error e)
    | (g2, .ok (v, ds)) =>
      (g2.updateNode id (fun m =>
        { m with cachedValue := some v, cachedDeps := ds, dirty := false,
                 revision := m.revision + 1 }),
       .ok v)

/-- Modelled from the spec (§4.3): `Node.get()`.  Re-entry into a node that is
already being evaluated (its id is on the in-progress stack) raises
`CyclicDependency` identifying the cycle's node ids.  Otherwise: memo hit when
`dirty` is false and every recorded dependency's current revision equals the
cached one; recompute otherwise.  `fuel` bounds the depth of node-to-node
reads; it is threaded structurally so the evaluator is a total function. -/
def nodeGet {V : Type} (fuel : Nat) (g : Graph V) (stack : List Id) (id : Id) :
    Graph V × Except RErr V :=
  if id ∈ stack then
    (g, .error (.cyclicDependency (id :: stack.takeWhile (fun s => s != id))))
  else
    match fuel with
    | 0 => (g, .error .outOfFuel)
    | f + 1 =>
      match g.findNode id with
      | none => (g, .error (.unknownBinding id))
      | some n =>
        match n.cachedValue, n.dirty with
        | some v, false =>
          match checkDeps (nodeGet f) g (id :: stack) n.cachedDeps with
          | (g', .error e) => (g', .error e)
          | (g', .ok true) => (g', .ok v)
          | (g', .ok false) => recompute (nodeGet f) g' stack id
        | _, _ => recompute (nodeGet f) g stack id

/-- Apply a sequence of Cell writes in program order. -/
def applyWrites {V : Type} (g : Graph V) : List (Id × V) → Graph V
  | [] => g
  | (i, v) :: t => applyWrites (g.setCell i v) t

section AssocLemmas

variable {α : Type _}

theorem findIn_updateIn_self (id : Id) (f : α → α) (l : List (Id × α)) :
    findIn id (updateIn id f l) = (findIn id l).map f := by
  induction l with
  | nil => simp [findIn, updateIn]
  | cons h t ih =>
    obtain ⟨i, a⟩ := h
    by_cases hi : i = id
    · simp [findIn, updateIn, hi]
    · simp [findIn, updateIn, hi, ih]

theorem findIn_updateIn_ne {j id : Id} (hne : j ≠ id) (f : α → α) (l : List (Id × α)) :
    findIn j (updateIn id f l) = findIn j l := by
  induction l with
  | nil => simp [updateIn]
  | cons h t ih =>
    obtain ⟨i, a⟩ := h
    by_cases hi : i = id
    · subst hi
      simp [findIn, updateIn, Ne.symm hne, ih]
    · by_cases hj : i = j
      · subst hj
        simp [findIn, updateIn, hi]
      · simp [findIn, updateIn, hi, hj, ih]

end AssocLemmas

theorem Graph.findCell_setCell_self {V : Type} (g : Graph V) (id : Id) (v : V) (c : Cell V)
    (h : g.findCell id = some c) :
    (g.setCell id v).findCell id = some { value := v, revision := c.revision + 1 } := by
  simp [Graph.findCell, Graph.setCell, findIn_updateIn_self, h] at *
  simp [h]

theorem Graph.findCell_setCell_ne {V : Type} (g : Graph V) {j id : Id} (hne : j ≠ id) (v : V) :
    (g.setCell id v).findCell j = g.findCell j := by
  simp [Graph.findCell, Graph.setCell, findIn_updateIn_ne hne]

theorem applyWrites_revision {V : Type} (ws : List (Id × V)) (g : Graph V) (id : Id) (c : Cell V)
    (h : g.findCell id = some c) :
    ∃ c', (applyWrites g ws).findCell id = some c' ∧
      c'.revision = c.revision + (ws.filter (fun w => w.1 = id)).length := by
  induction ws generalizing g c with
  | nil => exact ⟨c, h, rfl⟩
  | cons w t ih =>
    obtain ⟨j, v⟩ := w
    by_cases hj : j = id
    · subst hj
      obtain ⟨c', h1, h2⟩ := ih (g.setCell j v) { value := v, revision := c.revision + 1 }
        (Graph.findCell_setCell_self g j v c h)
      refine ⟨c', h1, ?_⟩
      simp [h2, List.filter]
      omega
    · obtain ⟨c', h1, h2⟩ := ih (g.setCell j v) c (by
        rw [Graph.findCell_setCell_ne g (fun hh => hj hh.symm) v]; exact h)
      refine ⟨c', h1, ?_⟩
      simp [h2, List.filter, fun hh => hj hh]

/-- C7.  Unconditional revision bump: every `set(newValue)` on a Cell, with no
equality short-circuit, replaces the value and increments the revision by one;
over any sequence of writes the Cell's revision grows by exactly the number of
writes addressed to it, hence strictly increases at every write to it. -/
theorem claim_C7_revision_bump {V : Type} :
    (∀ (g : Graph V) (id : Id) (v : V) (c : Cell V),
      g.findCell id = some c →
      (g.setCell id v).findCell id = some { value := v, revision := c.revision + 1 }) ∧
    (∀ (g : Graph V) (id : Id) (ws : List (Id × V)) (c : Cell V),
      g.findCell id = some c →
      ∃ c', (applyWrites g ws).findCell id = some c' ∧
        c'.revision = c.revision + (ws.filter (fun w => w.1 = id)).length) :=
  ⟨fun g id v c h => Graph.findCell_setCell_self g id v c h,
   fun g id ws c h => applyWrites_revision ws g id c h⟩

/-- A tiny concrete graph: one cell `x` holding `5` at revision `0`. -/
def exGraph : Graph Nat :=
  { cells := [(["x"], { value := 5, revision := 0 })] }

/-- Witness for C7 at a concrete input; the single write stores the value `5`
that the cell already holds, and the revision still bumps. -/
theorem claim_C7_revision_bump_witness :
    (exGraph.setCell ["x"] 5).findCell ["x"] = some { value := 5, revision := 1 } ∧
    ∃ c', (applyWrites exGraph [(["x"], 5), (["x"], 7)]).findCell ["x"] = some c' ∧
      c'.revision = 0 + ([((["x"] : Id), (5 : Nat)), (["x"], 7)].filter
        (fun w => w.1 = ["x"])).length :=
  ⟨(claim_C7_revision_bump.1 exGraph ["x"] 5 { value := 5, revision := 0 } rfl),
   (claim_C7_revision_bump.2 exGraph ["x"] [(["x"], 5), (["x"], 7)]
     { value := 5, revision := 0 } rfl)⟩

/-! ### Structural lemmas: evaluation never touches cells, never touches a node
whose id is on the in-progress stack, and never decreases any revision. -/

/-- `Keeps stack g g'` : going from `g` to `g'`, the cells are unchanged and
every node whose id is in `stack` is unchanged. -/
def Keeps {V : Type} (stack : List Id) (g g' : Graph V) : Prop :=
  g'.cells = g.cells ∧ ∀ j ∈ stack, g'.findNode j = g.findNode j

theorem keepsRefl {V : Type} (stack : List Id) (g : Graph V) : Keeps stack g g :=
  ⟨rfl, fun _ _ => rfl⟩

theorem keepsTrans {V : Type} {stack : List Id} {g g' g'' : Graph V}
    (h1 : Keeps stack g g') (h2 : Keeps stack g' g'') : Keeps stack g g'' :=
  ⟨h2.1.trans h1.1, fun j hj => (h2.2 j hj).trans (h1.2 j hj)⟩

theorem keepsCons {V : Type} {i : Id} {stack : List Id} {g g' : Graph V}
    (h : Keeps (i :: stack) g g') : Keeps stack g g' :=
  ⟨h.1, fun j hj => h.2 j (List.mem_cons_of_mem i hj)⟩

theorem keepsUpdate {V : Type} {id : Id} {stack : List Id} (g : Graph V)
    (hid : id ∉ stack) (f : Node V → Node V) : Keeps stack g (g.updateNode id f) := by
  refine ⟨rfl, fun j hj => ?_⟩
  have hne : j ≠ id := fun h => hid (h ▸ hj)
  simp [Graph.updateNode, Graph.findNode, findIn_updateIn_ne hne]

/-- A node-read operation that keeps cells and stacked nodes intact. -/
def StableGet {V : Type} (getFn : GetFn V) : Prop :=
  ∀ g stack id, Keeps stack g (getFn g stack id).1

theorem evalExpr_keeps {V : Type} {getFn : GetFn V} (hg : StableGet getFn)
    (e : Expr V) (g : Graph V) (stack : List Id) (deps : List (Id × Nat)) :
    Keeps stack g (evalExpr getFn g stack deps e).1 := by
  induction e generalizing g deps with
  | const v => exact keepsRefl _ _
  | readCell id => cases h : g.findCell id <;> simp [evalExpr, h] <;> exact keepsRefl _ _
  | readNode id =>
    have hk := hg g stack id
    rcases h : getFn g stack id with ⟨g', r⟩
    rw [h] at hk
    cases r with
    | error e => simpa [evalExpr, h] using hk
    | ok v => cases h2 : g'.findNode id <;> simp [evalExpr, h, h2] <;> exact hk
  | app f a ih =>
    have h1 := ih g deps
    rcases h : evalExpr getFn g stack deps a with ⟨g', r⟩
    rw [h] at h1
    cases r <;> simpa [evalExpr, h] using h1
  | app2 f a b iha ihb =>
    have h1 := iha g deps
    rcases h : evalExpr getFn g stack deps a with ⟨g', r⟩
    rw [h] at h1
    cases r with
    | error e => simpa [evalExpr, h] using h1
    | ok vd =>
      obtain ⟨va, d⟩ := vd
      have h3 := ihb g' d
      rcases h2 : evalExpr getFn g' stack d b with ⟨g'', r2⟩
      rw [h2] at h3
      cases r2 <;> simp [evalExpr, h, h2] <;> exact keepsTrans h1 h3
  | branch c p t e ihc iht ihe =>
    have h1 := ihc g deps
    rcases h : evalExpr getFn g stack deps c with ⟨g', r⟩
    rw [h] at h1
    cases r with
    | error err => simpa [evalExpr, h] using h1
    | ok vd =>
      obtain ⟨vc, d⟩ := vd
      by_cases hp : p vc
      · have h2 := iht g' d
        simp [evalExpr, h, hp]
        exact keepsTrans h1 h2
      · have h2 := ihe g' d
        simp [evalExpr, h, hp]
        exact keepsTrans h1 h2
  | failE msg => exact keepsRefl _ _

theorem checkDeps_keeps {V : Type} {getFn : GetFn V} (hg : StableGet getFn)
    (deps : List (Id × Nat)) (g : Graph V) (stack : List Id) :
    Keeps stack g (checkDeps getFn g stack deps).1 := by
  induction deps generalizing g with
  | nil => exact keepsRefl _ _
  | cons p rest ih =>
    obtain ⟨d, r⟩ := p
    cases h : g.findCell d with
    | some c =>
      by_cases hr : c.revision = r
      · simpa [checkDeps, h, hr] using ih g
      · simp [checkDeps, h, hr]
        exact keepsRefl _ _
    | none =>
      cases h2 : g.findNode d with
      | none => simp [checkDeps, h, h2]; exact keepsRefl _ _
      | some n =>
        have hk := hg g stack d
        rcases h3 : getFn g stack d with ⟨g', r'⟩
        rw [h3] at hk
        cases r' with
        | error e => simpa [checkDeps, h, h2, h3] using hk
        | ok v =>
          cases h4 : g'.findNode d with
          | none => simpa [checkDeps, h, h2, h3, h4] using hk
          | some n' =>
            by_cases hr : n'.revision = r
            · have h5 := ih g'
              simp [checkDeps, h, h2, h3, h4, hr]
              exact keepsTrans hk h5
            · simpa [checkDeps, h, h2, h3, h4, hr] using hk

theorem recompute_keeps {V : Type} {getFn : GetFn V} (hg : StableGet getFn)
    (g : Graph V) {stack : List Id} {id : Id} (hid : id ∉ stack) :
    Keeps stack g (recompute getFn g stack id).1 := by
  cases h : g.findNode id with
  | none => simp [recompute, h]; exact keepsRefl _ _
  | some n =>
    have h1 : Keeps stack g
        (g.updateNode id (fun m => { m with dirty := true, callCount := m.callCount + 1 })) :=
      keepsUpdate g hid _
    have h2 := evalExpr_keeps hg n.compute
      (g.updateNode id (fun m => { m with dirty := true, callCount := m.callCount + 1 }))
      (id :: stack) []
    rcases h3 : evalExpr getFn
        (g.updateNode id (fun m => { m with dirty := true, callCount := m.callCount + 1 }))
        (id :: stack) [] n.compute with ⟨g2, r⟩
    rw [h3] at h2
    cases r with
    | error e => simp [recompute, h, h3]; exact keepsTrans h1 (keepsCons h2)
    | ok vd =>
      obtain ⟨v, ds⟩ := vd
      simp [recompute, h, h3]
      exact keepsTrans (keepsTrans h1 (keepsCons h2)) (keepsUpdate g2 hid _)

theorem nodeGet_stable {V : Type} : ∀ fuel : Nat, StableGet (nodeGet (V := V) fuel) := by
  intro fuel
  induction fuel with
  | zero =>
    intro g stack id
    by_cases h : id ∈ stack <;> simp [nodeGet, h] <;> exact keepsRefl _ _
  | succ f ih =>
    intro g stack id
    by_cases hs : id ∈ stack
    · simp [nodeGet, hs]; exact keepsRefl _ _
    · cases hn : g.findNode id with
      | none => simp [nodeGet, hs, hn]; exact keepsRefl _ _
      | some n =>
        cases hv : n.cachedValue with
        | none =>
          simp [nodeGet, hs, hn, hv]
          exact recompute_keeps ih g hs
        | some v =>
          cases hd : n.dirty with
          | true =>
            simp [nodeGet, hs, hn, hv, hd]
            exact recompute_keeps ih g hs
          | false =>
            have hk := checkDeps_keeps ih n.cachedDeps g (id :: stack)
            rcases hc : checkDeps (nodeGet f) g (id :: stack) n.cachedDeps with ⟨g', r⟩
            rw [hc] at hk
            cases r with
            | error e => simpa [nodeGet, hs, hn, hv, hd, hc] using keepsCons hk
            | ok b =>
              cases b with
              | true => simpa [nodeGet, hs, hn, hv, hd, hc] using keepsCons hk
              | false =>
                simp [nodeGet, hs, hn, hv, hd, hc]
                exact keepsTrans (keepsCons hk) (recompute_keeps ih g' hs)

/-- `RevLe g g'` : every dependency's current revision in `g` is still present
in `g'` and has not decreased. -/
def RevLe {V : Type} (g g' : Graph V) : Prop :=
  ∀ d r, g.revOf d = some r → ∃ r', g'.revOf d = some r' ∧ r ≤ r'

theorem revLeRefl {V : Type} (g : Graph V) : RevLe g g :=
  fun _ r h => ⟨r, h, le_refl r⟩

theorem revLeTrans {V : Type} {g g' g'' : Graph V}
    (h1 : RevLe g g') (h2 : RevLe g' g'') : RevLe g g'' := by
  intro d r h
  obtain ⟨r', hr', hle⟩ := h1 d r h
  obtain ⟨r'', hr'', hle'⟩ := h2 d r' hr'
  exact ⟨r'', hr'', hle.trans hle'⟩

theorem revLeUpdate {V : Type} (g : Graph V) (id : Id) {f : Node V → Node V}
    (hf : ∀ m, m.revision ≤ (f m).revision) : RevLe g (g.updateNode id f) := by
  intro d r h
  have hcells : (g.updateNode id f).findCell d = g.findCell d := by
    simp [Graph.findCell, Graph.updateNode]
  cases hC : g.findCell d with
  | some c =>
    simp [Graph.revOf, hC] at h
    exact ⟨r, by simp [Graph.revOf, hcells, hC, h], le_refl r⟩
  | none =>
    simp [Graph.revOf, hC] at h
    obtain ⟨n, hn, hr⟩ := h
    by_cases hd : d = id
    · subst hd
      refine ⟨(f n).revision, ?_, hr ▸ hf n⟩
      simp [Graph.findNode] at hn
      simp [Graph.findCell] at hC
      simp [Graph.revOf, Graph.findCell, Graph.findNode, Graph.updateNode,
        findIn_updateIn_self, hn, hC]
    · refine ⟨r, ?_, le_refl r⟩
      simp [Graph.revOf, hcells, hC]
      refine ⟨n, ?_, hr⟩
      simp [Graph.findNode, Graph.updateNode] at hn ⊢
      rw [findIn_updateIn_ne hd]
      exact hn

/-- A node-read operation that never decreases any revision. -/
def MonoGet {V : Type} (getFn : GetFn V) : Prop :=
  ∀ g stack id, RevLe g (getFn g stack id).1

theorem evalExpr_rev {V : Type} {getFn : GetFn V} (hg : MonoGet getFn)
    (e : Expr V) (g : Graph V) (stack : List Id) (deps : List (Id × Nat)) :
    RevLe g (evalExpr getFn g stack deps e).1 := by
  induction e generalizing g deps with
  | const v => exact revLeRefl _
  | readCell id => cases h : g.findCell id <;> simp [evalExpr, h] <;> exact revLeRefl _
  | readNode id =>
    have hk := hg g stack id
    rcases h : getFn g stack id with ⟨g', r⟩
    rw [h] at hk
    cases r with
    | error e => simpa [evalExpr, h] using hk
    | ok v => cases h2 : g'.findNode id <;> simp [evalExpr, h, h2] <;> exact hk
  | app f a ih =>
    have h1 := ih g deps
    rcases h : evalExpr getFn g stack deps a with ⟨g', r⟩
    rw [h] at h1
    cases r <;> simpa [evalExpr, h] using h1
  | app2 f a b iha ihb =>
    have h1 := iha g deps
    rcases h : evalExpr getFn g stack deps a with ⟨g', r⟩
    rw [h] at h1
    cases r with
    | error e => simpa [evalExpr, h] using h1
    | ok vd =>
      obtain ⟨va, d⟩ := vd
      have h3 := ihb g' d
      rcases h2 : evalExpr getFn g' stack d b with ⟨g'', r2⟩
      rw [h2] at h3
      cases r2 <;> simp [evalExpr, h, h2] <;> exact revLeTrans h1 h3
  | branch c p t e ihc iht ihe =>
    have h1 := ihc g deps
    rcases h : evalExpr getFn g stack deps c with ⟨g', r⟩
    rw [h] at h1
    cases r with
    | error err => simpa [evalExpr, h] using h1
    | ok vd =>
      obtain ⟨vc, d⟩ := vd
      by_cases hp : p vc
      · simp [evalExpr, h, hp]
        exact revLeTrans h1 (iht g' d)
      · simp [evalExpr, h, hp]
        exact revLeTrans h1 (ihe g' d)
  | failE msg => exact revLeRefl _

theorem checkDeps_rev {V : Type} {getFn : GetFn V} (hg : MonoGet getFn)
    (deps : List (Id × Nat)) (g : Graph V) (stack : List Id) :
    RevLe g (checkDeps getFn g stack deps).1 := by
  induction deps generalizing g with
  | nil => exact revLeRefl _
  | cons p rest ih =>
    obtain ⟨d, r⟩ := p
    cases h : g.findCell d with
    | some c =>
      by_cases hr : c.revision = r
      · simpa [checkDeps, h, hr] using ih g
      · simp [checkDeps, h, hr]; exact revLeRefl _
    | none =>
      cases h2 : g.findNode d with
      | none => simp [checkDeps, h, h2]; exact revLeRefl _
      | some n =>
        have hk := hg g stack d
        rcases h3 : getFn g stack d with ⟨g', r'⟩
        rw [h3] at hk
        cases r' with
        | error e => simpa [checkDeps, h, h2, h3] using hk
        | ok v =>
          cases h4 : g'.findNode d with
          | none => simpa [checkDeps, h, h2, h3, h4] using hk
          | some n' =>
            by_cases hr : n'.revision = r
            · simp [checkDeps, h, h2, h3, h4, hr]
              exact revLeTrans hk (ih g')
            · simpa [checkDeps, h, h2, h3, h4, hr] using hk

theorem recompute_rev {V : Type} {getFn : GetFn V} (hg : MonoGet getFn)
    (g : Graph V) (stack : List Id) (id : Id) :
    RevLe g (recompute getFn g stack id).1 := by
  cases h : g.findNode id with
  | none => simp [recompute, h]; exact revLeRefl _
  | some n =>
    have h1 : RevLe g
        (g.updateNode id (fun m => { m with dirty := true, callCount := m.callCount + 1 })) :=
      revLeUpdate g id (fun m => le_refl _)
    have h2 := evalExpr_rev hg n.compute
      (g.updateNode id (fun m => { m with dirty := true, callCount := m.callCount + 1 }))
      (id :: stack) []
    rcases h3 : evalExpr getFn
        (g.updateNode id (fun m => { m with dirty := true, callCount := m.callCount + 1 }))
        (id :: stack) [] n.compute with ⟨g2, r⟩
    rw [h3] at h2
    cases r with
    | error e => simp [recompute, h, h3]; exact revLeTrans h1 h2
    | ok vd =>
      obtain ⟨v, ds⟩ := vd
      simp [recompute, h, h3]
      exact revLeTrans (revLeTrans h1 h2) (revLeUpdate g2 id (fun m => Nat.le_succ _))

theorem nodeGet_mono {V : Type} : ∀ fuel : Nat, MonoGet (nodeGet (V := V) fuel) := by
  intro fuel
  induction fuel with
  | zero =>
    intro g stack id
    by_cases h : id ∈ stack <;> simp [nodeGet, h] <;> exact revLeRefl _
  | succ f ih =>
    intro g stack id
    by_cases hs : id ∈ stack
    · simp [nodeGet, hs]; exact revLeRefl _
    · cases hn : g.findNode id with
      | none => simp [nodeGet, hs, hn]; exact revLeRefl _
      | some n =>
        cases hv : n.cachedValue with
        | none =>
          simp [nodeGet, hs, hn, hv]
          exact recompute_rev ih g stack id
        | some v =>
          cases hd : n.dirty with
          | true =>
            simp [nodeGet, hs, hn, hv, hd]
            exact recompute_rev ih g stack id
          | false =>
            have hk := checkDeps_rev ih n.cachedDeps g (id :: stack)
            rcases hc : checkDeps (nodeGet f) g (id :: stack) n.cachedDeps with ⟨g', r⟩
            rw [hc] at hk
            cases r with
            | error e => simpa [nodeGet, hs, hn, hv, hd, hc] using hk
            | ok b =>
              cases b with
              | true => simpa [nodeGet, hs, hn, hv, hd, hc] using hk
              | false =>
                simp [nodeGet, hs, hn, hv, hd, hc]
                exact revLeTrans hk (recompute_rev ih g' stack id)

theorem findNode_updateNode_self {V : Type} (g : Graph V) (id : Id) (f : Node V → Node V) :
    (g.updateNode id f).findNode id = (g.findNode id).map f := by
  simp [Graph.findNode, Graph.updateNode, findIn_updateIn_self]

/-- Entering `recompute` invokes the compute function exactly once: the node's
invocation counter ends exactly one above its previous value, whether the
computation succeeds or fails. -/
theorem recompute_callCount {V : Type} {getFn : GetFn V} (hst : StableGet getFn)
    (g : Graph V) {stack : List Id} {id : Id} (n : Node V)
    (hn : g.findNode id = some n) :
    ∃ n', (recompute getFn g stack id).1.findNode id = some n' ∧
      n'.callCount = n.callCount + 1 ∧ n'.compute = n.compute := by
  have hbump : (g.updateNode id
      (fun m => { m with dirty := true, callCount := m.callCount + 1 })).findNode id =
      some { n with dirty := true, callCount := n.callCount + 1 } := by
    rw [findNode_updateNode_self, hn]; rfl
  have hkeep := evalExpr_keeps hst n.compute
    (g.updateNode id (fun m => { m with dirty := true, callCount := m.callCount + 1 }))
    (id :: stack) []
  rcases h3 : evalExpr getFn
      (g.updateNode id (fun m => { m with dirty := true, callCount := m.callCount + 1 }))
      (id :: stack) [] n.compute with ⟨g2, r⟩
  rw [h3] at hkeep
  have hg2 : g2.findNode id = some { n with dirty := true, callCount := n.callCount + 1 } :=
    (hkeep.2 id (List.mem_cons_self id stack)).trans hbump
  cases r with
  | error e =>
    refine ⟨{ n with dirty := true, callCount := n.callCount + 1 }, ?_, rfl, rfl⟩
    simp [recompute, hn, h3]
    exact hg2
  | ok vd =>
    obtain ⟨v, ds⟩ := vd
    refine ⟨{ n with
        cachedValue := some v
        cachedDeps := ds
        dirty := false
        revision := n.revision + 1
        callCount := n.callCount + 1 }, ?_, rfl, rfl⟩
    simp [recompute, hn, h3]
    rw [findNode_updateNode_self, hg2]
    rfl

/-- Failure atomicity of `recompute` itself, regardless of how it was
entered: the error comes back verbatim, the node keeps its previous
`cachedValue` and `cachedDeps` with `dirty` set and the invocation counter
recording the failed run, and the next `get()` goes straight back into
`recompute`. -/
theorem recompute_fail_atomic {V : Type} (fuel : Nat) (g g2 : Graph V)
    (stack : List Id) (id : Id) (n : Node V) (er : RErr)
    (hstack : id ∉ stack)
    (hn : g.findNode id = some n)
    (hfail : evalExpr (nodeGet fuel)
        (g.updateNode id (fun m => { m with dirty := true, callCount := m.callCount + 1 }))
        (id :: stack) [] n.compute = (g2, .error er)) :
    recompute (nodeGet fuel) g stack id = (g2, .error er) ∧
    g2.findNode id = some { n with dirty := true, callCount := n.callCount + 1 } ∧
    (∀ f', nodeGet (f' + 1) g2 stack id = recompute (nodeGet f') g2 stack id) := by
  have hrec : recompute (nodeGet fuel) g stack id = (g2, .error er) := by
    simp [recompute, hn, hfail]
  have hkeep := evalExpr_keeps (nodeGet_stable fuel) n.compute
    (g.updateNode id (fun m => { m with dirty := true, callCount := m.callCount + 1 }))
    (id :: stack) []
  rw [hfail] at hkeep
  have hg2 : g2.findNode id = some { n with dirty := true, callCount := n.callCount + 1 } := by
    refine (hkeep.2 id (List.mem_cons_self id stack)).trans ?_
    rw [findNode_updateNode_self, hn]; rfl
  refine ⟨hrec, hg2, ?_⟩
  intro f'
  cases hv2 : ({ n with dirty := true, callCount := n.callCount + 1 } : Node V).cachedValue with
  | none => simp [nodeGet, hstack, hg2, hv2]
  | some v => simp [nodeGet, hstack, hg2, hv2]

/-- C5.  ComputeFailure atomicity, for every way the failing evaluation is
entered: whenever a Node's compute function raises, the error propagates
verbatim to the caller of `get()`, the Node's cached value and recorded
dependencies are left at their previous state, the dirty flag remains set
(with the invocation counter recording the one failed run), and a subsequent
`get()` goes straight back into `recompute` instead of serving the poisoned
cache.  Clause 1 is `recompute` itself; clause 2 covers the direct entries
(`dirty` already set, or nothing cached yet); clause 3 covers a previously
clean memoized node driven into recomputation by a stale dependency
(`checkDeps` returning `false` while `dirty` is still `false`). -/
theorem claim_C5_compute_failure_atomicity {V : Type} (fuel : Nat) (g : Graph V)
    (stack : List Id) (id : Id) (n : Node V)
    (hstack : id ∉ stack)
    (hn : g.findNode id = some n) :
    (∀ g2 er, evalExpr (nodeGet fuel)
        (g.updateNode id (fun m => { m with dirty := true, callCount := m.callCount + 1 }))
        (id :: stack) [] n.compute = (g2, .error er) →
      recompute (nodeGet fuel) g stack id = (g2, .error er) ∧
      g2.findNode id = some { n with dirty := true, callCount := n.callCount + 1 } ∧
      (∀ f', nodeGet (f' + 1) g2 stack id = recompute (nodeGet f') g2 stack id)) ∧
    (n.dirty = true ∨ n.cachedValue = none →
      ∀ g2 er, evalExpr (nodeGet fuel)
        (g.updateNode id (fun m => { m with dirty := true, callCount := m.callCount + 1 }))
        (id :: stack) [] n.compute = (g2, .error er) →
      nodeGet (fuel + 1) g stack id = (g2, .error er)) ∧
    (∀ v g', n.dirty = false → n.cachedValue = some v →
      checkDeps (nodeGet fuel) g (id :: stack) n.cachedDeps = (g', .ok false) →
      ∀ g2 er, evalExpr (nodeGet fuel)
        (g'.updateNode id (fun m => { m with dirty := true, callCount := m.callCount + 1 }))
        (id :: stack) [] n.compute = (g2, .error er) →
      nodeGet (fuel + 1) g stack id = (g2, .error er) ∧
      g2.findNode id = some { n with dirty := true, callCount := n.callCount + 1 } ∧
      (∀ f', nodeGet (f' + 1) g2 stack id = recompute (nodeGet f') g2 stack id)) := by
  refine ⟨?_, ?_, ?_⟩
  · intro g2 er hfail
    exact recompute_fail_atomic fuel g g2 stack id n er hstack hn hfail
  · intro hbd g2 er hfail
    have hrec := (recompute_fail_atomic fuel g g2 stack id n er hstack hn hfail).1
    rcases hbd with hdirty | hvnone
    · cases hv : n.cachedValue with
      | none => simp [nodeGet, hstack, hn, hv, hrec]
      | some v => simp [nodeGet, hstack, hn, hv, hdirty, hrec]
    · cases hd : n.dirty with
      | false => simp [nodeGet, hstack, hn, hvnone, hd, hrec]
      | true => simp [nodeGet, hstack, hn, hvnone, hd, hrec]
  · intro v g' hdirty hv hchk g2 er hfail
    have hkeep := checkDeps_keeps (nodeGet_stable fuel) n.cachedDeps g (id :: stack)
    rw [hchk] at hkeep
    have hng' : g'.findNode id = some n :=
      (hkeep.2 id (List.mem_cons_self id stack)).trans hn
    have hrec := recompute_fail_atomic fuel g' g2 stack id n er hstack hng' hfail
    refine ⟨?_, hrec.2.1, hrec.2.2⟩
    simp [nodeGet, hstack, hn, hv, hdirty, hchk, hrec.1]

/-- A concrete node whose compute function always raises, with a previously
valid cache and the dirty flag set. -/
def nFail : Node Nat :=
  { compute := .failE "boom", cachedValue := some 42, cachedDeps := [(["x"], 0)],
    dirty := true, revision := 3, callCount := 7 }

def exFailGraph : Graph Nat := { nodes := [(["n"], nFail)] }

def exFailGraph2 : Graph Nat :=
  exFailGraph.updateNode ["n"] (fun m => { m with dirty := true, callCount := m.callCount + 1 })

/-- A clean memoized node (`dirty = false`) whose recorded dependency cell
`x` has since been rewritten (revision 1 against cached 0), and whose compute
now raises: the spec's malformed-filter scenario. -/
def nStale : Node Nat :=
  { compute := .failE "boom", cachedValue := some 42, cachedDeps := [(["x"], 0)],
    dirty := false, revision := 3, callCount := 7 }

def exStaleGraph : Graph Nat :=
  { cells := [(["x"], { value := 0, revision := 1 })], nodes := [(["n"], nStale)] }

def exStaleGraph2 : Graph Nat :=
  exStaleGraph.updateNode ["n"] (fun m => { m with dirty := true, callCount := m.callCount + 1 })

/-- Witness for C5 at concrete inputs, one per entry path: for the dirty node
and for the clean-but-stale node alike, the error surfaces through `get()`,
the cache still holds `42` with the old dependency record, dirty ends set,
and the next `get()` re-enters `recompute`. -/
theorem claim_C5_compute_failure_atomicity_witness :
    nodeGet 1 exFailGraph [] ["n"] = (exFailGraph2, .error (.computeFailure "boom")) ∧
    exFailGraph2.findNode ["n"] = some { nFail with dirty := true, callCount := nFail.callCount + 1 } ∧
    nodeGet 1 exFailGraph2 [] ["n"] = recompute (nodeGet 0) exFailGraph2 [] ["n"] ∧
    nodeGet 1 exStaleGraph [] ["n"] = (exStaleGraph2, .error (.computeFailure "boom")) ∧
    exStaleGraph2.findNode ["n"] = some { nStale with dirty := true, callCount := nStale.callCount + 1 } ∧
    nodeGet 1 exStaleGraph2 [] ["n"] = recompute (nodeGet 0) exStaleGraph2 [] ["n"] := by
  have h1 := claim_C5_compute_failure_atomicity 0 exFailGraph [] ["n"] nFail (by simp) rfl
  have h2 := claim_C5_compute_failure_atomicity 0 exStaleGraph [] ["n"] nStale (by simp) rfl
  have hB := h1.2.1 (Or.inl rfl) exFailGraph2 (.computeFailure "boom") rfl
  have hA := h1.1 exFailGraph2 (.computeFailure "boom") rfl
  have hC := h2.2.2 42 exStaleGraph rfl rfl rfl exStaleGraph2 (.computeFailure "boom") rfl
  exact ⟨hB, hA.2.1, hA.2.2 0, hC.1, hC.2.1, hC.2.2 0⟩

theorem findCell_eq_of_cells_eq {V : Type} {g g' : Graph V} (h : g'.cells = g.cells) (d : Id) :
    g'.findCell d = g.findCell d := by
  simp [Graph.findCell, h]

/-- When the freshness check fails, some recorded dependency's current
revision (in the post-check graph) differs from the revision cached at last
evaluation. -/
theorem checkDeps_false_stale {V : Type} {getFn : GetFn V} (hst : StableGet getFn)
    (deps : List (Id × Nat)) (g g' : Graph V) (stack : List Id)
    (h : checkDeps getFn g stack deps = (g', .ok false)) :
    ∃ p ∈ deps, g'.revOf p.1 ≠ some p.2 := by
  induction deps generalizing g with
  | nil => simp [checkDeps] at h
  | cons p rest ih =>
    obtain ⟨d, r⟩ := p
    cases hC : g.findCell d with
    | some c =>
      by_cases hr : c.revision = r
      · simp only [checkDeps, hC, if_pos hr] at h
        obtain ⟨q, hq, hne⟩ := ih g h
        exact ⟨q, List.mem_cons_of_mem _ hq, hne⟩
      · simp only [checkDeps, hC, if_neg hr, Prod.mk.injEq] at h
        refine ⟨(d, r), List.mem_cons_self _ _, ?_⟩
        rw [← h.1]
        simp [Graph.revOf, hC, hr]
    | none =>
      cases hN : g.findNode d with
      | none =>
        simp only [checkDeps, hC, hN, Prod.mk.injEq] at h
        refine ⟨(d, r), List.mem_cons_self _ _, ?_⟩
        rw [← h.1]
        simp [Graph.revOf, hC, hN]
      | some n =>
        have hk := hst g stack d
        rcases h3 : getFn g stack d with ⟨g1, r1⟩
        rw [h3] at hk
        cases r1 with
        | error e => simp [checkDeps, hC, hN, h3] at h
        | ok v =>
          cases h4 : g1.findNode d with
          | none =>
            simp only [checkDeps, hC, hN, h3, h4, Prod.mk.injEq] at h
            refine ⟨(d, r), List.mem_cons_self _ _, ?_⟩
            rw [← h.1]
            simp [Graph.revOf, findCell_eq_of_cells_eq hk.1, hC, h4]
          | some n' =>
            by_cases hr : n'.revision = r
            · simp only [checkDeps, hC, hN, h3, h4, if_pos hr] at h
              obtain ⟨q, hq, hne⟩ := ih g1 h
              exact ⟨q, List.mem_cons_of_mem _ hq, hne⟩
            · simp only [checkDeps, hC, hN, h3, h4, if_neg hr, Prod.mk.injEq] at h
              refine ⟨(d, r), List.mem_cons_self _ _, ?_⟩
              rw [← h.1]
              simp [Graph.revOf, findCell_eq_of_cells_eq hk.1, hC, h4, hr]

/-- When the freshness check succeeds, every recorded Cell dependency's current
revision equals the revision cached at last evaluation: a memo hit never
serves a value computed from a stale Cell revision. -/
theorem checkDeps_true_cells {V : Type} {getFn : GetFn V} (hst : StableGet getFn)
    (deps : List (Id × Nat)) (g g' : Graph V) (stack : List Id)
    (h : checkDeps getFn g stack deps = (g', .ok true)) :
    ∀ p ∈ deps, ∀ c, g'.findCell p.1 = some c → c.revision = p.2 := by
  induction deps generalizing g with
  | nil => intro p hp; simp at hp
  | cons q rest ih =>
    obtain ⟨d, r⟩ := q
    intro p hp c hc
    cases hC : g.findCell d with
    | some c0 =>
      by_cases hr : c0.revision = r
      · simp only [checkDeps, hC, if_pos hr] at h
        rcases List.mem_cons.1 hp with hEq | hMem
        · subst hEq
          have hcells := (checkDeps_keeps hst rest g stack).1
          rw [h] at hcells
          rw [findCell_eq_of_cells_eq hcells d, hC] at hc
          cases hc
          exact hr
        · exact ih g h p hMem c hc
      · simp [checkDeps, hC, hr] at h
    | none =>
      cases hN : g.findNode d with
      | none => simp [checkDeps, hC, hN] at h
      | some n =>
        have hk := hst g stack d
        rcases h3 : getFn g stack d with ⟨g1, r1⟩
        rw [h3] at hk
        cases r1 with
        | error e => simp [checkDeps, hC, hN, h3] at h
        | ok v =>
          cases h4 : g1.findNode d with
          | none => simp [checkDeps, hC, hN, h3, h4] at h
          | some n' =>
            by_cases hr : n'.revision = r
            · simp only [checkDeps, hC, hN, h3, h4, if_pos hr] at h
              rcases List.mem_cons.1 hp with hEq | hMem
              · subst hEq
                have hcells := (checkDeps_keeps hst rest g1 stack).1
                rw [h] at hcells
                rw [findCell_eq_of_cells_eq hcells d,
                  findCell_eq_of_cells_eq hk.1 d, hC] at hc
                cases hc
              · exact ih g1 h p hMem c hc
            · simp [checkDeps, hC, hN, h3, h4, hr] at h

/-- C1.  Memoization correctness: when a Node's `get()` finds `dirty` false
and every recorded dependency's current revision equal to the revision cached
at its last evaluation, it returns the previously cached value, the Node
(including its invocation counter) is untouched, and every recorded Cell
dependency is provably non-stale; when at least one recorded dependency's
current revision is strictly newer than the cached one, `get()` runs
`recompute`, which invokes the compute function exactly once. -/
theorem claim_C1_memoization {V : Type} (fuel : Nat) (g : Graph V) (stack : List Id)
    (id : Id) (n : Node V) (v : V)
    (hstack : id ∉ stack)
    (hn : g.findNode id = some n)
    (hdirty : n.dirty = false)
    (hv : n.cachedValue = some v) :
    (∀ g', checkDeps (nodeGet fuel) g (id :: stack) n.cachedDeps = (g', .ok true) →
      nodeGet (fuel + 1) g stack id = (g', .ok v) ∧
      g'.findNode id = some n ∧
      (∀ p ∈ n.cachedDeps, ∀ c, g'.findCell p.1 = some c → c.revision = p.2)) ∧
    (∀ g', checkDeps (nodeGet fuel) g (id :: stack) n.cachedDeps = (g', .ok false) →
      (∀ p ∈ n.cachedDeps, ∃ cur, g.revOf p.1 = some cur ∧ p.2 ≤ cur) →
      nodeGet (fuel + 1) g stack id = recompute (nodeGet fuel) g' stack id ∧
      (∃ p ∈ n.cachedDeps, ∃ cur, g'.revOf p.1 = some cur ∧ p.2 < cur) ∧
      (∃ n', (recompute (nodeGet fuel) g' stack id).1.findNode id = some n' ∧
        n'.callCount = n.callCount + 1)) := by
  constructor
  · intro g' hchk
    refine ⟨?_, ?_, checkDeps_true_cells (nodeGet_stable fuel) n.cachedDeps g g' _ hchk⟩
    · simp [nodeGet, hstack, hn, hv, hdirty, hchk]
    · have hk := checkDeps_keeps (nodeGet_stable fuel) n.cachedDeps g (id :: stack)
      rw [hchk] at hk
      exact (hk.2 id (List.mem_cons_self id stack)).trans hn
  · intro g' hchk hmono
    have hk := checkDeps_keeps (nodeGet_stable fuel) n.cachedDeps g (id :: stack)
    rw [hchk] at hk
    have hng' : g'.findNode id = some n :=
      (hk.2 id (List.mem_cons_self id stack)).trans hn
    refine ⟨?_, ?_, ?_⟩
    · simp [nodeGet, hstack, hn, hv, hdirty, hchk]
    · obtain ⟨p, hp, hne⟩ :=
        checkDeps_false_stale (nodeGet_stable fuel) n.cachedDeps g g' _ hchk
      obtain ⟨cur, hcur, hle⟩ := hmono p hp
      have hrev := checkDeps_rev (nodeGet_mono fuel) n.cachedDeps g (id :: stack)
      rw [hchk] at hrev
      obtain ⟨cur', hcur', hle'⟩ := hrev p.1 cur hcur
      refine ⟨p, hp, cur', hcur', ?_⟩
      rcases Nat.lt_or_ge p.2 cur' with hlt | hge
      · exact hlt
      · exact absurd (hcur' ▸ congrArg some (Nat.le_antisymm (hle.trans hle') hge).symm)
          (by exact fun hh => hne hh)
    · obtain ⟨n', h1, h2, _⟩ :=
        recompute_callCount (nodeGet_stable fuel) g' n hng'
      exact ⟨n', h1, h2⟩

/-- A concrete memoized node: `n = a + 1`, last evaluated when cell `a` held
`10` at revision `0`. -/
def nHit : Node Nat :=
  { compute := .app (fun x => x + 1) (.readCell ["a"]), cachedValue := some 11,
    cachedDeps := [(["a"], 0)], dirty := false, revision := 1, callCount := 1 }

/-- Cell `a` unchanged since the node's last evaluation: memo hit. -/
def gHit : Graph Nat :=
  { cells := [(["a"], { value := 10, revision := 0 })], nodes := [(["n"], nHit)] }

/-- Cell `a` rewritten (revision bumped to 1): memo miss. -/
def gMiss : Graph Nat :=
  { cells := [(["a"], { value := 20, revision := 1 })], nodes := [(["n"], nHit)] }

/-- Witness for C1 at concrete inputs: with the dependency unchanged, `get()`
returns the cached `11` and leaves the node (and its invocation counter)
untouched; with the dependency's revision bumped, `get()` goes into
`recompute`. -/
theorem claim_C1_memoization_witness :
    nodeGet 1 gHit [] ["n"] = (gHit, .ok 11) ∧
    gHit.findNode ["n"] = some nHit ∧
    nodeGet 1 gMiss [] ["n"] = recompute (nodeGet 0) gMiss [] ["n"] := by
  have hH := (claim_C1_memoization 0 gHit [] ["n"] nHit 11 (by simp) rfl rfl rfl).1 gHit rfl
  have hM := (claim_C1_memoization 0 gMiss [] ["n"] nHit 11 (by simp) rfl rfl rfl).2 gMiss rfl
    (by
      intro p hp
      simp [nHit] at hp
      subst hp
      exact ⟨1, rfl, by omega⟩)
  exact ⟨hH.1, hH.2.1, hM.1⟩

/-- A graph with a node reading itself directly, plus an off-cycle node. -/
def gSelf : Graph Nat :=
  { nodes := [(["s"], { compute := .readNode ["s"] }), (["m"], { compute := .const 7 })] }

/-- A graph with a two-node cycle `a → b → a`, plus an off-cycle node. -/
def gChain : Graph Nat :=
  { nodes := [(["a"], { compute := .readNode ["b"] }), (["b"], { compute := .readNode ["a"] }),
              (["m"], { compute := .const 7 })] }

/-- C4.  Cycle detection: a node whose compute reads itself directly, or
through a chain of two nodes, makes the first `get()` that would re-enter it
fail with `CyclicDependency` listing the cycle's node ids — at every
sufficient fuel, so evaluation terminates and never exhausts the recursion
budget — and the graph remains usable: reading the off-cycle node `m` after
the failed read still succeeds. -/
theorem claim_C4_cycle_detection :
    (∀ k, (nodeGet (k+1) gSelf [] ["s"]).2 = .error (.cyclicDependency [["s"]])) ∧
    (∀ k, (nodeGet (k+1+1) gChain [] ["a"]).2 = .error (.cyclicDependency [["a"], ["b"]])) ∧
    (∀ k j, (nodeGet (j+1) ((nodeGet (k+1) gSelf [] ["s"]).1) [] ["m"]).2 = .ok 7) := by
  refine ⟨?_, ?_, ?_⟩
  · intro k
    simp [nodeGet, gSelf, recompute, evalExpr, Graph.findNode, findIn, Graph.updateNode, updateIn]
    rw [nodeGet.eq_def]
    simp [List.takeWhile]
  · intro k
    simp [nodeGet, gChain, recompute, evalExpr, Graph.findNode, findIn, Graph.updateNode, updateIn]
    rw [nodeGet.eq_def]
    simp [List.takeWhile]
    rfl
  · intro k j
    simp [nodeGet, gSelf, recompute, evalExpr, Graph.findNode, findIn, Graph.updateNode, updateIn]
    rw [nodeGet.eq_def]
    simp [nodeGet, recompute, evalExpr, checkDeps, Graph.findNode, findIn, Graph.updateNode,
      updateIn, List.takeWhile]

/-- A node that reads cell `C` and then, depending on the predicate `p`,
reads cell `A` or cell `B`. -/
def gCond {V : Type} (va vb vc : V) (p : V → Bool) : Graph V :=
  { cells := [(["A"], { value := va, revision := 0 }), (["B"], { value := vb, revision := 0 }),
              (["C"], { value := vc, revision := 0 })],
    nodes := [(["N"], { compute := .branch (.readCell ["C"]) p (.readCell ["A"]) (.readCell ["B"]) })] }

/-- C2.  Dynamic dependency tracking: after writing only `C` and re-reading
the node, the recorded dependency set holds exactly the cells read on the
branch actually taken (`C` plus `A`, or `C` plus `B`); a later write to the
cell that was not read on that evaluation leaves a subsequent `get()` as a
pure memo hit — the graph (hence the invocation counter) is unchanged and the
cached value is returned. -/
theorem claim_C2_dynamic_dependencies {V : Type} (va vb vc vc' w : V) (p : V → Bool) :
    ((nodeGet 1 (((nodeGet 1 (gCond va vb vc p) [] ["N"]).1).setCell ["C"] vc') [] ["N"]).1).findNode ["N"] =
      some { compute := .branch (.readCell ["C"]) p (.readCell ["A"]) (.readCell ["B"]),
             cachedValue := some (if p vc' then va else vb),
             cachedDeps := if p vc' then [(["C"], 1), (["A"], 0)] else [(["C"], 1), (["B"], 0)],
             dirty := false, revision := 2, callCount := 2 } ∧
    nodeGet 1
        ((((nodeGet 1 (((nodeGet 1 (gCond va vb vc p) [] ["N"]).1).setCell ["C"] vc') [] ["N"]).1)).setCell
          (if p vc' then ["B"] else ["A"]) w) [] ["N"] =
      (((((nodeGet 1 (((nodeGet 1 (gCond va vb vc p) [] ["N"]).1).setCell ["C"] vc') [] ["N"]).1)).setCell
          (if p vc' then ["B"] else ["A"]) w), .ok (if p vc' then va else vb)) := by
  by_cases h1 : p vc <;> by_cases h2 : p vc' <;>
    constructor <;>
    simp [nodeGet, gCond, recompute, evalExpr, checkDeps, Graph.findNode, Graph.findCell, findIn,
      Graph.updateNode, Graph.setCell, updateIn, h1, h2]

/-- Invocation counter of a node, if present. -/
def callCountOf {V : Type} (g : Graph V) (id : Id) : Option Nat :=
  (g.findNode id).map (fun n => n.callCount)

/-- The diamond: nodes `B` and `C` both read cell `A`; node `D` reads both. -/
def gDiamond {V : Type} (a0 : V) (fB fC : V → V) (fD : V → V → V) : Graph V :=
  { cells := [(["A"], { value := a0, revision := 0 })],
    nodes := [(["B"], { compute := .app fB (.readCell ["A"]) }),
              (["C"], { compute := .app fC (.readCell ["A"]) }),
              (["D"], { compute := .app2 fD (.readNode ["B"]) (.readNode ["C"]) })] }

/-- The diamond graph after the first read of `D`: every node evaluated once. -/
def gDiamond1 {V : Type} (a0 : V) (fB fC : V → V) (fD : V → V → V) : Graph V :=
  { cells := [(["A"], { value := a0, revision := 0 })],
    nodes := [(["B"], { compute := .app fB (.readCell ["A"]), cachedValue := some (fB a0),
                        cachedDeps := [(["A"], 0)], dirty := false, revision := 1, callCount := 1 }),
              (["C"], { compute := .app fC (.readCell ["A"]), cachedValue := some (fC a0),
                        cachedDeps := [(["A"], 0)], dirty := false, revision := 1, callCount := 1 }),
              (["D"], { compute := .app2 fD (.readNode ["B"]) (.readNode ["C"]),
                        cachedValue := some (fD (fB a0) (fC a0)),
                        cachedDeps := [(["B"], 1), (["C"], 1)], dirty := false, revision := 1,
                        callCount := 1 })] }

/-- The diamond graph after writing `A` and reading `D` again: every node
evaluated exactly once more. -/
def gDiamond2 {V : Type} (a1 : V) (fB fC : V → V) (fD : V → V → V) : Graph V :=
  { cells := [(["A"], { value := a1, revision := 1 })],
    nodes := [(["B"], { compute := .app fB (.readCell ["A"]), cachedValue := some (fB a1),
                        cachedDeps := [(["A"], 1)], dirty := false, revision := 2, callCount := 2 }),
              (["C"], { compute := .app fC (.readCell ["A"]), cachedValue := some (fC a1),
                        cachedDeps := [(["A"], 1)], dirty := false, revision := 2, callCount := 2 }),
              (["D"], { compute := .app2 fD (.readNode ["B"]) (.readNode ["C"]),
                        cachedValue := some (fD (fB a1) (fC a1)),
                        cachedDeps := [(["B"], 2), (["C"], 2)], dirty := false, revision := 2,
                        callCount := 2 })] }

/-- C3.  Diamond propagation without double-firing: with `D` depending on `B`
and `C`, both depending on cell `A`, a single write to `A` followed by one
read of `D` yields the value computed from the fresh `A` through exactly one
new evaluation of each of `B`, `C` and `D` (each invocation counter goes from
1 to exactly 2). -/
theorem claim_C3_diamond {V : Type} (a0 a1 : V) (fB fC : V → V) (fD : V → V → V) :
    (nodeGet 2 (gDiamond a0 fB fC fD) [] ["D"]).2 = .ok (fD (fB a0) (fC a0)) ∧
    callCountOf (nodeGet 2 (gDiamond a0 fB fC fD) [] ["D"]).1 ["B"] = some 1 ∧
    callCountOf (nodeGet 2 (gDiamond a0 fB fC fD) [] ["D"]).1 ["C"] = some 1 ∧
    callCountOf (nodeGet 2 (gDiamond a0 fB fC fD) [] ["D"]).1 ["D"] = some 1 ∧
    (nodeGet 2 (((nodeGet 2 (gDiamond a0 fB fC fD) [] ["D"]).1).setCell ["A"] a1) [] ["D"]).2 =
      .ok (fD (fB a1) (fC a1)) ∧
    callCountOf (nodeGet 2 (((nodeGet 2 (gDiamond a0 fB fC fD) [] ["D"]).1).setCell ["A"] a1) [] ["D"]).1 ["B"] = some 2 ∧
    callCountOf (nodeGet 2 (((nodeGet 2 (gDiamond a0 fB fC fD) [] ["D"]).1).setCell ["A"] a1) [] ["D"]).1 ["C"] = some 2 ∧
    callCountOf (nodeGet 2 (((nodeGet 2 (gDiamond a0 fB fC fD) [] ["D"]).1).setCell ["A"] a1) [] ["D"]).1 ["D"] = some 2 := by
  have h1 : nodeGet 2 (gDiamond a0 fB fC fD) [] ["D"] =
      (gDiamond1 a0 fB fC fD, .ok (fD (fB a0) (fC a0))) := rfl
  have h2 : nodeGet 2 ((gDiamond1 a0 fB fC fD).setCell ["A"] a1) [] ["D"] =
      (gDiamond2 a1 fB fC fD, .ok (fD (fB a1) (fC a1))) := rfl
  refine ⟨?_, ?_, ?_, ?_, ?_, ?_, ?_, ?_⟩
  all_goals rw [h1]
  all_goals dsimp only
  all_goals try rw [h2]
  all_goals simp [callCountOf, gDiamond1, gDiamond2, Graph.findNode, findIn]

/-! ### Namespaces / module instances -/

/-- Modelled from the spec (§4.5): a reusable module definition: local Cells
with initial values, local Nodes with compute expressions over local ids, and
the local names of the exposed Nodes. -/
structure ModuleDef (V : Type) where
  cells : List (Id × V)
  nodes : List (Id × Expr V)
  exposed : List Id

/-- Fully qualify a local id with the instance id (`instanceId/localName`). -/
def qualify (inst : String) (id : Id) : Id := inst :: id

/-- Qualify every Cell/Node read inside a compute expression. -/
def qualifyE {V : Type} (inst : String) : Expr V → Expr V
  | .const v => .const v
  | .readCell id => .readCell (qualify inst id)
  | .readNode id => .readNode (qualify inst id)
  | .app f a => .app f (qualifyE inst a)
  | .app2 f a b => .app2 f (qualifyE inst a) (qualifyE inst b)
  | .branch c p t e => .branch (qualifyE inst c) p (qualifyE inst t) (qualifyE inst e)
  | .failE msg => .failE msg

/-- Modelled from the spec (§4.5): `instantiate(moduleDefinition, instanceId)`
builds a fresh set of Cells and Nodes under fully-qualified ids and returns
the exposed bindings. -/
def instantiate {V : Type} (g : Graph V) (m : ModuleDef V) (inst : String) :
    Graph V × List Id :=
  ({ cells := g.cells ++ m.cells.map (fun cv => (qualify inst cv.1, { value := cv.2, revision := 0 })),
     nodes := g.nodes ++ m.nodes.map (fun ne => (qualify inst ne.1, { compute := qualifyE inst ne.2 })) },
   m.exposed.map (qualify inst))

/-- The fully-qualified ids created by instantiating `m` under `inst`. -/
def addedIds {V : Type} (m : ModuleDef V) (inst : String) : List Id :=
  m.cells.map (fun cv => qualify inst cv.1) ++ m.nodes.map (fun ne => qualify inst ne.1)

/-- The ids a compute expression reads. -/
def exprIds {V : Type} : Expr V → List Id
  | .const _ => []
  | .readCell id => [id]
  | .readNode id => [id]
  | .app _ a => exprIds a
  | .app2 _ a b => exprIds a ++ exprIds b
  | .branch c _ t e => exprIds c ++ exprIds t ++ exprIds e
  | .failE _ => []

/-- Two graphs agree on every Cell and Node whose id satisfies `P`. -/
def AgreeOn {V : Type} (P : Id → Prop) (g1 g2 : Graph V) : Prop :=
  (∀ i, P i → g1.findCell i = g2.findCell i) ∧ (∀ i, P i → g1.findNode i = g2.findNode i)

/-- Every node inside `P` only mentions `P`-ids: its compute expression reads
only `P`-ids and its recorded dependencies are `P`-ids. -/
def ClosedG {V : Type} (P : Id → Prop) (g : Graph V) : Prop :=
  ∀ i n, P i → g.findNode i = some n →
    (∀ j ∈ exprIds n.compute, P j) ∧ (∀ p ∈ n.cachedDeps, P p.1)

/-- A node-read operation whose observable result depends only on the `P`-part
of the graph, and which preserves agreement and closure. -/
def FrameGet {V : Type} (P : Id → Prop) (getFn : GetFn V) : Prop :=
  ∀ g1 g2 stack i, P i → AgreeOn P g1 g2 → ClosedG P g1 → ClosedG P g2 →
    (getFn g1 stack i).2 = (getFn g2 stack i).2 ∧
    AgreeOn P (getFn g1 stack i).1 (getFn g2 stack i).1 ∧
    ClosedG P (getFn g1 stack i).1 ∧ ClosedG P (getFn g2 stack i).1

theorem agreeUpdate {V : Type} {P : Id → Prop} {g1 g2 : Graph V}
    (h : AgreeOn P g1 g2) (i : Id) (f : Node V → Node V) :
    AgreeOn P (g1.updateNode i f) (g2.updateNode i f) := by
  constructor
  · intro j hj
    simpa [Graph.findCell, Graph.updateNode] using h.1 j hj
  · intro j hj
    by_cases hji : j = i
    · subst hji
      simp [Graph.findNode, Graph.updateNode, findIn_updateIn_self]
      have := h.2 j hj
      simp [Graph.findNode] at this
      rw [this]
    · simp [Graph.findNode, Graph.updateNode, findIn_updateIn_ne hji]
      have := h.2 j hj
      simpa [Graph.findNode] using this

theorem closedKeep {V : Type} {P : Id → Prop} {g : Graph V} (hc : ClosedG P g)
    (i : Id) {f : Node V → Node V}
    (hf : ∀ m, (f m).compute = m.compute ∧ (f m).cachedDeps = m.cachedDeps) :
    ClosedG P (g.updateNode i f) := by
  intro j n hj hn
  by_cases hji : j = i
  · subst hji
    rw [findNode_updateNode_self] at hn
    cases hm : g.findNode j with
    | none => rw [hm] at hn; cases hn
    | some m =>
      rw [hm] at hn
      cases hn
      have := hc j m hj hm
      rw [(hf m).1, (hf m).2]
      exact this
  · rw [Graph.findNode, Graph.updateNode] at hn
    simp only [findIn_updateIn_ne hji] at hn
    exact hc j n hj hn

theorem closedNewDeps {V : Type} {P : Id → Prop} {g : Graph V} (hc : ClosedG P g)
    (i : Id) (v : V) (ds : List (Id × Nat)) (hds : ∀ p ∈ ds, P p.1) :
    ClosedG P (g.updateNode i (fun m =>
      { m with cachedValue := some v, cachedDeps := ds, dirty := false,
               revision := m.revision + 1 })) := by
  intro j n hj hn
  by_cases hji : j = i
  · subst hji
    rw [findNode_updateNode_self] at hn
    cases hm : g.findNode j with
    | none => rw [hm] at hn; cases hn
    | some m =>
      rw [hm] at hn
      cases hn
      exact ⟨(hc j m hj hm).1, hds⟩
  · rw [Graph.findNode, Graph.updateNode] at hn
    simp only [findIn_updateIn_ne hji] at hn
    exact hc j n hj hn

theorem evalExpr_frame {V : Type} {P : Id → Prop} {getFn : GetFn V} (hF : FrameGet P getFn)
    (e : Expr V) (g1 g2 : Graph V) (stack : List Id) (deps : List (Id × Nat))
    (he : ∀ j ∈ exprIds e, P j) (hag : AgreeOn P g1 g2)
    (hc1 : ClosedG P g1) (hc2 : ClosedG P g2) (hdeps : ∀ p ∈ deps, P p.1) :
    (evalExpr getFn g1 stack deps e).2 = (evalExpr getFn g2 stack deps e).2 ∧
    AgreeOn P (evalExpr getFn g1 stack deps e).1 (evalExpr getFn g2 stack deps e).1 ∧
    ClosedG P (evalExpr getFn g1 stack deps e).1 ∧
    ClosedG P (evalExpr getFn g2 stack deps e).1 ∧
    (∀ v ds, (evalExpr getFn g1 stack deps e).2 = .ok (v, ds) → ∀ p ∈ ds, P p.1) := by
  induction e generalizing g1 g2 deps with
  | const v =>
    refine ⟨rfl, hag, hc1, hc2, ?_⟩
    intro v' ds h
    simp [evalExpr] at h
    exact h.2 ▸ hdeps
  | readCell id =>
    have hP : P id := he id (by simp [exprIds])
    have hcell := hag.1 id hP
    cases h : g1.findCell id with
    | none =>
      have h2 : g2.findCell id = none := hcell ▸ h
      simp [evalExpr, h, h2]
      exact ⟨hag, hc1, hc2⟩
    | some c =>
      have h2 : g2.findCell id = some c := hcell ▸ h
      simp only [evalExpr, h, h2]
      refine ⟨trivial, hag, hc1, hc2, ?_⟩
      intro v' ds hh
      simp only [Except.ok.injEq, Prod.mk.injEq] at hh
      intro p hp
      rw [← hh.2] at hp
      rcases List.mem_append.1 hp with hmem | hmem
      · exact hdeps p hmem
      · simp at hmem
        subst hmem
        exact hP
  | readNode id =>
    have hP : P id := he id (by simp [exprIds])
    have hFi := hF g1 g2 stack id hP hag hc1 hc2
    rcases h1 : getFn g1 stack id with ⟨g1', r1⟩
    rcases h2 : getFn g2 stack id with ⟨g2', r2⟩
    rw [h1, h2] at hFi
    obtain ⟨hr, hag', hc1', hc2'⟩ := hFi
    simp only at hr
    subst hr
    cases r1 with
    | error e =>
      simp only [evalExpr, h1, h2]
      exact ⟨trivial, hag', hc1', hc2', by intro v ds hh; cases hh⟩
    | ok v =>
      have hnode := hag'.2 id hP
      cases hn1 : g1'.findNode id with
      | none =>
        have hn2 : g2'.findNode id = none := hnode ▸ hn1
        simp only [evalExpr, h1, h2, hn1, hn2]
        exact ⟨trivial, hag', hc1', hc2', by intro v' ds hh; cases hh⟩
      | some n =>
        have hn2 : g2'.findNode id = some n := hnode ▸ hn1
        simp only [evalExpr, h1, h2, hn1, hn2]
        refine ⟨trivial, hag', hc1', hc2', ?_⟩
        intro v' ds hh
        simp only [Except.ok.injEq, Prod.mk.injEq] at hh
        intro p hp
        rw [← hh.2] at hp
        rcases List.mem_append.1 hp with hmem | hmem
        · exact hdeps p hmem
        · simp at hmem
          subst hmem
          exact hP
  | app f a ih =>
    have iha := ih g1 g2 deps (fun j hj => he j (by simpa [exprIds] using hj)) hag hc1 hc2 hdeps
    rcases h1 : evalExpr getFn g1 stack deps a with ⟨g1', r1⟩
    rcases h2 : evalExpr getFn g2 stack deps a with ⟨g2', r2⟩
    rw [h1, h2] at iha
    obtain ⟨hr, hag', hc1', hc2', hds⟩ := iha
    simp only at hr
    subst hr
    cases r1 with
    | error e =>
      simp only [evalExpr, h1, h2]
      exact ⟨trivial, hag', hc1', hc2', by intro v ds hh; cases hh⟩
    | ok vd =>
      obtain ⟨v, d⟩ := vd
      simp only [evalExpr, h1, h2]
      refine ⟨trivial, hag', hc1', hc2', ?_⟩
      intro v' ds hh
      simp only [Except.ok.injEq, Prod.mk.injEq] at hh
      exact hh.2 ▸ hds v d rfl
  | app2 f a b iha ihb =>
    have ihaa := iha g1 g2 deps (fun j hj => he j (by simp [exprIds]; exact Or.inl hj))
      hag hc1 hc2 hdeps
    rcases h1 : evalExpr getFn g1 stack deps a with ⟨g1', r1⟩
    rcases h2 : evalExpr getFn g2 stack deps a with ⟨g2', r2⟩
    rw [h1, h2] at ihaa
    obtain ⟨hr, hag', hc1', hc2', hds⟩ := ihaa
    simp only at hr
    subst hr
    cases r1 with
    | error e =>
      simp only [evalExpr, h1, h2]
      exact ⟨trivial, hag', hc1', hc2', by intro v ds hh; cases hh⟩
    | ok vd =>
      obtain ⟨va, d⟩ := vd
      have ihbb := ihb g1' g2' d (fun j hj => he j (by simp [exprIds]; exact Or.inr hj))
        hag' hc1' hc2' (hds va d rfl)
      rcases h3 : evalExpr getFn g1' stack d b with ⟨g1'', r3⟩
      rcases h4 : evalExpr getFn g2' stack d b with ⟨g2'', r4⟩
      rw [h3, h4] at ihbb
      obtain ⟨hr2, hag'', hc1'', hc2'', hds2⟩ := ihbb
      simp only at hr2
      subst hr2
      cases r3 with
      | error e =>
        simp only [evalExpr, h1, h2, h3, h4]
        exact ⟨trivial, hag'', hc1'', hc2'', by intro v ds hh; cases hh⟩
      | ok vd2 =>
        obtain ⟨vb, d2⟩ := vd2
        simp only [evalExpr, h1, h2, h3, h4]
        refine ⟨trivial, hag'', hc1'', hc2'', ?_⟩
        intro v' ds hh
        simp only [Except.ok.injEq, Prod.mk.injEq] at hh
        exact hh.2 ▸ hds2 vb d2 rfl
  | branch c p t e ihc iht ihe =>
    have ihcc := ihc g1 g2 deps
      (fun j hj => he j (by simp [exprIds]; exact Or.inl hj)) hag hc1 hc2 hdeps
    rcases h1 : evalExpr getFn g1 stack deps c with ⟨g1', r1⟩
    rcases h2 : evalExpr getFn g2 stack deps c with ⟨g2', r2⟩
    rw [h1, h2] at ihcc
    obtain ⟨hr, hag', hc1', hc2', hds⟩ := ihcc
    simp only at hr
    subst hr
    cases r1 with
    | error err =>
      simp only [evalExpr, h1, h2]
      exact ⟨trivial, hag', hc1', hc2', by intro v ds hh; cases hh⟩
    | ok vd =>
      obtain ⟨vc, d⟩ := vd
      by_cases hp : p vc
      · have ihtt := iht g1' g2' d
          (fun j hj => he j (by simp [exprIds]; exact Or.inr (Or.inl hj)))
          hag' hc1' hc2' (hds vc d rfl)
        simpa only [evalExpr, h1, h2, if_pos hp] using ihtt
      · have ihee := ihe g1' g2' d
          (fun j hj => he j (by simp [exprIds]; exact Or.inr (Or.inr hj)))
          hag' hc1' hc2' (hds vc d rfl)
        simpa only [evalExpr, h1, h2, if_neg hp] using ihee
  | failE msg =>
    refine ⟨rfl, hag, hc1, hc2, ?_⟩
    intro v ds hh
    simp [evalExpr] at hh

theorem checkDeps_frame {V : Type} {P : Id → Prop} {getFn : GetFn V} (hF : FrameGet P getFn)
    (deps : List (Id × Nat)) (g1 g2 : Graph V) (stack : List Id)
    (hdeps : ∀ p ∈ deps, P p.1) (hag : AgreeOn P g1 g2)
    (hc1 : ClosedG P g1) (hc2 : ClosedG P g2) :
    (checkDeps getFn g1 stack deps).2 = (checkDeps getFn g2 stack deps).2 ∧
    AgreeOn P (checkDeps getFn g1 stack deps).1 (checkDeps getFn g2 stack deps).1 ∧
    ClosedG P (checkDeps getFn g1 stack deps).1 ∧
    ClosedG P (checkDeps getFn g2 stack deps).1 := by
  induction deps generalizing g1 g2 with
  | nil => exact ⟨rfl, hag, hc1, hc2⟩
  | cons q rest ih =>
    obtain ⟨d, r⟩ := q
    have hPd : P d := hdeps (d, r) (List.mem_cons_self _ _)
    have hcell := hag.1 d hPd
    have hrest : ∀ p ∈ rest, P p.1 := fun p hp => hdeps p (List.mem_cons_of_mem _ hp)
    cases h : g1.findCell d with
    | some c =>
      have h2 : g2.findCell d = some c := hcell ▸ h
      by_cases hr : c.revision = r
      · simpa only [checkDeps, h, h2, if_pos hr] using ih g1 g2 hrest hag hc1 hc2
      · simp only [checkDeps, h, h2, if_neg hr]
        exact ⟨trivial, hag, hc1, hc2⟩
    | none =>
      have h2 : g2.findCell d = none := hcell ▸ h
      have hnode := hag.2 d hPd
      cases hn : g1.findNode d with
      | none =>
        have hn2 : g2.findNode d = none := hnode ▸ hn
        simp only [checkDeps, h, h2, hn, hn2]
        exact ⟨trivial, hag, hc1, hc2⟩
      | some n =>
        have hn2 : g2.findNode d = some n := hnode ▸ hn
        have hFd := hF g1 g2 stack d hPd hag hc1 hc2
        rcases hg1 : getFn g1 stack d with ⟨g1', r1⟩
        rcases hg2 : getFn g2 stack d with ⟨g2', r2⟩
        rw [hg1, hg2] at hFd
        obtain ⟨hr12, hag', hc1', hc2'⟩ := hFd
        simp only at hr12
        subst hr12
        cases r1 with
        | error e =>
          simp only [checkDeps, h, h2, hn, hn2, hg1, hg2]
          exact ⟨trivial, hag', hc1', hc2'⟩
        | ok v =>
          have hnode' := hag'.2 d hPd
          cases hn1' : g1'.findNode d with
          | none =>
            have hn2' : g2'.findNode d = none := hnode' ▸ hn1'
            simp only [checkDeps, h, h2, hn, hn2, hg1, hg2, hn1', hn2']
            exact ⟨trivial, hag', hc1', hc2'⟩
          | some n' =>
            have hn2' : g2'.findNode d = some n' := hnode' ▸ hn1'
            by_cases hr : n'.revision = r
            · simpa only [checkDeps, h, h2, hn, hn2, hg1, hg2, hn1', hn2', if_pos hr] using
                ih g1' g2' hrest hag' hc1' hc2'
            · simp only [checkDeps, h, h2, hn, hn2, hg1, hg2, hn1', hn2', if_neg hr]
              exact ⟨trivial, hag', hc1', hc2'⟩

theorem recompute_frame {V : Type} {P : Id → Prop} {getFn : GetFn V} (hF : FrameGet P getFn)
    (g1 g2 : Graph V) (stack : List Id) (i : Id) (hP : P i)
    (hag : AgreeOn P g1 g2) (hc1 : ClosedG P g1) (hc2 : ClosedG P g2) :
    (recompute getFn g1 stack i).2 = (recompute getFn g2 stack i).2 ∧
    AgreeOn P (recompute getFn g1 stack i).1 (recompute getFn g2 stack i).1 ∧
    ClosedG P (recompute getFn g1 stack i).1 ∧
    ClosedG P (recompute getFn g2 stack i).1 := by
  have hnode := hag.2 i hP
  cases hn : g1.findNode i with
  | none =>
    have hn2 : g2.findNode i = none := hnode ▸ hn
    simp only [recompute, hn, hn2]
    exact ⟨trivial, hag, hc1, hc2⟩
  | some n =>
    have hn2 : g2.findNode i = some n := hnode ▸ hn
    have hag1 := agreeUpdate hag i
      (fun m => { m with dirty := true, callCount := m.callCount + 1 })
    have hcb1 : ClosedG P (g1.updateNode i
        (fun m => { m with dirty := true, callCount := m.callCount + 1 })) :=
      closedKeep hc1 i (fun m => ⟨rfl, rfl⟩)
    have hcb2 : ClosedG P (g2.updateNode i
        (fun m => { m with dirty := true, callCount := m.callCount + 1 })) :=
      closedKeep hc2 i (fun m => ⟨rfl, rfl⟩)
    have hexpr : ∀ j ∈ exprIds n.compute, P j := (hc1 i n hP hn).1
    have hev := evalExpr_frame hF n.compute
      (g1.updateNode i (fun m => { m with dirty := true, callCount := m.callCount + 1 }))
      (g2.updateNode i (fun m => { m with dirty := true, callCount := m.callCount + 1 }))
      (i :: stack) [] hexpr hag1 hcb1 hcb2 (by simp)
    rcases he1 : evalExpr getFn
        (g1.updateNode i (fun m => { m with dirty := true, callCount := m.callCount + 1 }))
        (i :: stack) [] n.compute with ⟨g1'', r1⟩
    rcases he2 : evalExpr getFn
        (g2.updateNode i (fun m => { m with dirty := true, callCount := m.callCount + 1 }))
        (i :: stack) [] n.compute with ⟨g2'', r2⟩
    rw [he1, he2] at hev
    obtain ⟨hr, hag'', hc1'', hc2'', hds⟩ := hev
    simp only at hr
    subst hr
    cases r1 with
    | error e =>
      simp only [recompute, hn, hn2, he1, he2]
      exact ⟨trivial, hag'', hc1'', hc2''⟩
    | ok vd =>
      obtain ⟨v, ds⟩ := vd
      simp only [recompute, hn, hn2, he1, he2]
      exact ⟨trivial, agreeUpdate hag'' i _,
        closedNewDeps hc1'' i v ds (hds v ds rfl),
        closedNewDeps hc2'' i v ds (hds v ds rfl)⟩

theorem nodeGet_frame {V : Type} (P : Id → Prop) :
    ∀ fuel : Nat, FrameGet P (nodeGet (V := V) fuel) := by
  intro fuel
  induction fuel with
  | zero =>
    intro g1 g2 stack i hP hag hc1 hc2
    by_cases hs : i ∈ stack
    · simp only [nodeGet, if_pos hs]
      exact ⟨trivial, hag, hc1, hc2⟩
    · simp only [nodeGet, if_neg hs]
      exact ⟨trivial, hag, hc1, hc2⟩
  | succ f ih =>
    intro g1 g2 stack i hP hag hc1 hc2
    by_cases hs : i ∈ stack
    · simp only [nodeGet, if_pos hs]
      exact ⟨trivial, hag, hc1, hc2⟩
    · have hnode := hag.2 i hP
      cases hn : g1.findNode i with
      | none =>
        have hn2 : g2.findNode i = none := hnode ▸ hn
        simp only [nodeGet, if_neg hs, hn, hn2]
        exact ⟨trivial, hag, hc1, hc2⟩
      | some n =>
        have hn2 : g2.findNode i = some n := hnode ▸ hn
        have hdeps : ∀ p ∈ n.cachedDeps, P p.1 := (hc1 i n hP hn).2
        cases hv : n.cachedValue with
        | none =>
          have hrec := recompute_frame ih g1 g2 stack i hP hag hc1 hc2
          simpa only [nodeGet, if_neg hs, hn, hn2, hv] using hrec
        | some v =>
          cases hd : n.dirty with
          | true =>
            have hrec := recompute_frame ih g1 g2 stack i hP hag hc1 hc2
            simpa only [nodeGet, if_neg hs, hn, hn2, hv, hd] using hrec
          | false =>
            have hch := checkDeps_frame ih n.cachedDeps g1 g2 (i :: stack) hdeps hag hc1 hc2
            rcases hch1 : checkDeps (nodeGet f) g1 (i :: stack) n.cachedDeps with ⟨g1', r1⟩
            rcases hch2 : checkDeps (nodeGet f) g2 (i :: stack) n.cachedDeps with ⟨g2', r2⟩
            rw [hch1, hch2] at hch
            obtain ⟨hr, hag', hc1', hc2'⟩ := hch
            simp only at hr
            subst hr
            cases r1 with
            | error e =>
              simp only [nodeGet, if_neg hs, hn, hn2, hv, hd, hch1, hch2]
              exact ⟨trivial, hag', hc1', hc2'⟩
            | ok b =>
              cases b with
              | true =>
                simp only [nodeGet, if_neg hs, hn, hn2, hv, hd, hch1, hch2]
                exact ⟨trivial, hag', hc1', hc2'⟩
              | false =>
                have hrec := recompute_frame ih g1' g2' stack i hP hag' hc1' hc2'
                simpa only [nodeGet, if_neg hs, hn, hn2, hv, hd, hch1, hch2] using hrec

theorem addedIds_head {V : Type} (m : ModuleDef V) (inst : String) :
    ∀ i ∈ addedIds m inst, i.head? = some inst := by
  intro i hi
  simp only [addedIds, List.mem_append, List.mem_map] at hi
  rcases hi with ⟨cv, _, rfl⟩ | ⟨ne, _, rfl⟩ <;> rfl

theorem findIn_append_right {α : Type _} (i : Id) (l1 l2 : List (Id × α))
    (h : ∀ q ∈ l1, q.1 ≠ i) : findIn i (l1 ++ l2) = findIn i l2 := by
  induction l1 with
  | nil => rfl
  | cons q t ih =>
    obtain ⟨j, a⟩ := q
    have hj : j ≠ i := h (j, a) (List.mem_cons_self _ _)
    simp only [List.cons_append, findIn, if_neg hj]
    exact ih (fun q hq => h q (List.mem_cons_of_mem _ hq))

theorem exprIds_qualifyE {V : Type} (inst : String) (e : Expr V) :
    exprIds (qualifyE inst e) = (exprIds e).map (fun j => inst :: j) := by
  induction e <;> simp [exprIds, qualifyE, qualify, *]

theorem findIn_map_module {V : Type} (i : Id) (inst : String) (l : List (Id × Expr V))
    (n : Node V)
    (h : findIn i (l.map (fun ne =>
      (qualify inst ne.1, ({ compute := qualifyE inst ne.2 } : Node V)))) = some n) :
    ∃ e, n = { compute := qualifyE inst e } := by
  induction l with
  | nil => cases h
  | cons q t ih =>
    obtain ⟨j, e0⟩ := q
    by_cases hj : qualify inst j = i
    · simp only [List.map_cons, findIn, if_pos hj] at h
      exact ⟨e0, (Option.some.injEq _ _ ▸ h).symm⟩
    · simp only [List.map_cons, findIn, if_neg hj] at h
      exact ih h

/-- The graph obtained by instantiating module `m` twice, under instance ids
`"left"` and `"right"`, into an empty graph. -/
def moduleScene {V : Type} (m : ModuleDef V) : Graph V × List Id :=
  instantiate (instantiate {} m "left").1 m "right"

theorem moduleScene_closed {V : Type} (m : ModuleDef V) :
    ClosedG (fun i : Id => i.head? = some "right") (moduleScene m).1 := by
  intro i n hPi hn
  have hleft : ∀ q ∈ m.nodes.map (fun ne =>
      (qualify "left" ne.1, ({ compute := qualifyE "left" ne.2 } : Node V))), q.1 ≠ i := by
    intro q hq
    simp only [List.mem_map] at hq
    obtain ⟨x, _, rfl⟩ := hq
    intro hh
    rw [← hh] at hPi
    simp [qualify] at hPi
  have hn' : findIn i (m.nodes.map (fun ne =>
      (qualify "right" ne.1, ({ compute := qualifyE "right" ne.2 } : Node V)))) = some n := by
    have : (moduleScene m).1.findNode i =
        findIn i (m.nodes.map (fun ne =>
          (qualify "right" ne.1, ({ compute := qualifyE "right" ne.2 } : Node V)))) := by
      show findIn i (([] ++ m.nodes.map _) ++ m.nodes.map _) = _
      rw [List.nil_append, findIn_append_right i _ _ hleft]
    rw [← this]
    exact hn
  obtain ⟨e, rfl⟩ := findIn_map_module i "right" m.nodes n hn'
  constructor
  · intro j hj
    rw [exprIds_qualifyE] at hj
    simp only [List.mem_map] at hj
    obtain ⟨x, _, rfl⟩ := hj
    rfl
  · intro p hp
    simp at hp

/-- C6.  Namespace isolation: instantiating the same module under instance
ids `"left"` and `"right"`: (1) the two instances share no storage — no
fully-qualified id of one is an id of the other; (2) a write to any Cell of
the `"left"` instance leaves the value read from every exposed Node of the
`"right"` instance unchanged, at every fuel. -/
theorem claim_C6_namespace_isolation {V : Type} (m : ModuleDef V) :
    (∀ i ∈ addedIds m "left", i ∉ addedIds m "right") ∧
    (∀ (fuel : Nat) (ex c : Id) (w : V), ex ∈ (moduleScene m).2 →
      (nodeGet fuel (moduleScene m).1 [] ex).2 =
      (nodeGet fuel ((moduleScene m).1.setCell (qualify "left" c) w) [] ex).2) := by
  constructor
  · intro i hi hic
    have h1 := addedIds_head m "left" i hi
    have h2 := addedIds_head m "right" i hic
    rw [h1] at h2
    simp at h2
  · intro fuel ex c w hex
    have hPex : ex.head? = some "right" := by
      have : (moduleScene m).2 = m.exposed.map (qualify "right") := rfl
      rw [this] at hex
      simp only [List.mem_map] at hex
      obtain ⟨x, _, rfl⟩ := hex
      rfl
    have hag : AgreeOn (fun i : Id => i.head? = some "right") (moduleScene m).1
        ((moduleScene m).1.setCell (qualify "left" c) w) := by
      constructor
      · intro i hPi
        have hne : i ≠ qualify "left" c := by
          intro hh
          rw [hh] at hPi
          simp [qualify] at hPi
        exact (Graph.findCell_setCell_ne _ hne w).symm
      · intro i _
        rfl
    have hc1 := moduleScene_closed m
    have hc2 : ClosedG (fun i : Id => i.head? = some "right")
        ((moduleScene m).1.setCell (qualify "left" c) w) := by
      intro i n hPi hn
      exact hc1 i n hPi hn
    exact (nodeGet_frame (fun i : Id => i.head? = some "right") fuel
      (moduleScene m).1 ((moduleScene m).1.setCell (qualify "left" c) w) [] ex
      hPex hag hc1 hc2).1

/-- A concrete module: input cell `in`, exposed node `out = in * 2`. -/
def mEx : ModuleDef Nat :=
  { cells := [(["in"], 5)],
    nodes := [(["out"], .app (fun x => x * 2) (.readCell ["in"]))],
    exposed := [["out"]] }

/-- Witness for C6 at a concrete input: the left instance's cell id is not
among the right instance's ids, and writing `99` into the left input leaves
the right exposed node's read result unchanged. -/
theorem claim_C6_namespace_isolation_witness :
    ["left", "in"] ∉ addedIds mEx "right" ∧
    (nodeGet 1 (moduleScene mEx).1 [] ["right", "out"]).2 =
      (nodeGet 1 ((moduleScene mEx).1.setCell (qualify "left" ["in"]) 99) [] ["right", "out"]).2 :=
  ⟨(claim_C6_namespace_isolation mEx).1 ["left", "in"] (by simp [addedIds, mEx, qualify]),
   (claim_C6_namespace_isolation mEx).2 1 ["right", "out"] ["in"] 99
     (by simp [moduleScene, instantiate, mEx, qualify])⟩

/-- A data row with a single `bill` column (the spec's concrete scenario). -/
structure Row where
  bill : Int
deriving DecidableEq, Repr

/-- Values flowing through the engine in the billing scenario: numbers (the
slider cells) or row lists (the filtered view). -/
inductive Val where
  | num (n : Int)
  | rows (rs : List Row)
deriving DecidableEq, Repr

/-- The domain rows `[{bill:35},{bill:55},{bill:45}]`. -/
def billRows : List Row := [{ bill := 35 }, { bill := 55 }, { bill := 45 }]

/-- The compute function of the `filtered` node: keep the rows whose `bill`
lies between the two slider values, mirroring the numeric
`df[col].between(min_val, max_val)` branch of `get_filtered_data`. -/
def filterBetween (lo hi : Val) : Val :=
  match lo, hi with
  | .num a, .num b => .rows (billRows.filter (fun r => a ≤ r.bill ∧ r.bill ≤ b))
  | _, _ => .rows []

/-- Cells `minBill = 30` and `maxBill = 50` and the `filtered` node. -/
def gBill : Graph Val :=
  { cells := [(["minBill"], { value := .num 30, revision := 0 }),
              (["maxBill"], { value := .num 50, revision := 0 })],
    nodes := [(["filtered"],
      { compute := .app2 filterBetween (.readCell ["minBill"]) (.readCell ["maxBill"]) })] }

/-- C8.  Concrete filtering scenario: with `minBill = 30`, `maxBill = 50` and
rows `[{bill:35},{bill:55},{bill:45}]`, `get()` returns
`[{bill:35},{bill:45}]` (computed once); after `maxBill := 40`, the next
`get()` returns `[{bill:35}]` and the compute counter goes from exactly 1 to
exactly 2 — one invocation for that call. -/
theorem claim_C8_concrete_scenario :
    (nodeGet 1 gBill [] ["filtered"]).2 = .ok (.rows [{ bill := 35 }, { bill := 45 }]) ∧
    callCountOf (nodeGet 1 gBill [] ["filtered"]).1 ["filtered"] = some 1 ∧
    (nodeGet 1 (((nodeGet 1 gBill [] ["filtered"]).1).setCell ["maxBill"] (.num 40)) [] ["filtered"]).2 =
      .ok (.rows [{ bill := 35 }]) ∧
    callCountOf
      (nodeGet 1 (((nodeGet 1 gBill [] ["filtered"]).1).setCell ["maxBill"] (.num 40)) [] ["filtered"]).1
      ["filtered"] = some 2 := by
  refine ⟨?_, ?_, ?_, ?_⟩ <;> decide

end React

namespace Filters

/-! ### The filtering logic of `app-05c-modules.py`, translated from source. -/

/-- A pandas column: numeric dtype (sliders) or categorical dtype (checkbox
group).  `pd.api.types.is_numeric_dtype(df[col])` is the `numeric` case. -/
inductive ColData where
  | numeric (vals : List Int)
  | categorical (vals : List String)
deriving DecidableEq, Repr

/-- A dataframe: ordered named columns of equal length (row-aligned). -/
structure DF where
  cols : List (String × ColData)
deriving DecidableEq, Repr

/-- First-match lookup in a string-keyed association list (dict access). -/
def lookupS {α : Type _} (k : String) : List (String × α) → Option α
  | [] => none
  | (i, a) :: t => if i = k then some a else lookupS k t

def colLen : ColData → Nat
  | .numeric vals => vals.length
  | .categorical vals => vals.length

/-- Length of `df.index` (all columns share it in a well-formed frame). -/
def DF.nrows (df : DF) : Nat :=
  match df.cols with
  | [] => 0
  | c :: _ => colLen c.2

/-- Well-formedness: every column has the frame's row count. -/
def DF.wf (df : DF) : Prop := ∀ c ∈ df.cols, colLen c.2 = df.nrows

/-- The current value of a filter widget: a two-ended slider range or the
selected entries of a checkbox group. -/
inductive FilterState where
  | range (lo hi : Int)
  | selected (cats : List String)
deriving DecidableEq, Repr

/-- One entry of the `ui_filters` dictionary: the `filter_method` tag and the
initial widget value assigned by `create_ui_filters` (the slider's
`value=[min_val, max_val]`, the checkbox group's `selected=unique`). -/
structure UIFilter where
  filter_method : String
  init : FilterState
deriving DecidableEq, Repr

/-- Python errors the translated functions can raise: `KeyError` from a
missing dict/column key, the explicit `raise ValueError`, and type/unpacking
failures from a widget value whose shape does not match the branch. -/
inductive PyErr where
  | keyError (k : String)
  | valueError
  | typeError
deriving DecidableEq, Repr

def minList : List Int → Int
  | [] => 0
  | x :: t => t.foldl min x

def maxList : List Int → Int
  | [] => 0
  | x :: t => t.foldl max x

/-- `sorted(df[col].unique())`. -/
def uniqueSorted (l : List String) : List String :=
  l.dedup.mergeSort (fun a b => a ≤ b)

/-- The `ui_filters` entry built for a numeric column. -/
def numericUF (vals : List Int) : UIFilter :=
  { filter_method := "sliders2_between", init := .range (minList vals) (maxList vals) }

/-- The `ui_filters` entry built for a categorical column. -/
def categoricalUF (vals : List String) : UIFilter :=
  { filter_method := "list_isin", init := .selected (uniqueSorted vals) }

/-- Translated from `create_ui_filters` (`app-05c-modules.py`, lines 8-40):
for each column, a numeric dtype yields a `sliders2_between` filter whose
slider is initialised to `[min, max]` of the column; any other dtype yields a
`list_isin` filter initialised to all unique values.  A missing column raises
`KeyError`. -/
def create_ui_filters (df : DF) : List String → Except PyErr (List (String × UIFilter))
  | [] => .ok []
  | col :: rest =>
    match lookupS col df.cols with
    | none => .error (.keyError col)
    | some (.numeric vals) =>
      (create_ui_filters df rest).map (fun ufs => (col, numericUF vals) :: ufs)
    | some (.categorical vals) =>
      (create_ui_filters df rest).map (fun ufs => (col, categoricalUF vals) :: ufs)

/-- `df[col].between(min_val, max_val)` (inclusive on both ends). -/
def between_mask (vals : List Int) (lo hi : Int) : List Bool :=
  vals.map (fun v => decide (lo ≤ v ∧ v ≤ hi))

/-- `df[col].isin(selected_categories)`. -/
def isin_mask (vals : List String) (cats : List String) : List Bool :=
  vals.map (fun v => decide (v ∈ cats))

/-- The `for col in columns` loop of `get_filtered_data`: combine the running
boolean mask with each column's filter, dispatching on `filter_method` and
raising `ValueError` on an unknown tag. -/
def build_mask (input : String → FilterState) (ui_filters : List (String × UIFilter))
    (df : DF) : List String → List Bool → Except PyErr (List Bool)
  | [], mask => .ok mask
  | col :: rest, mask =>
    match lookupS col ui_filters with
    | none => .error (.keyError col)
    | some uf =>
      if uf.filter_method = "sliders2_between" then
        match lookupS col df.cols with
        | none => .error (.keyError col)
        | some cd =>
          match input ("filter_" ++ col), cd with
          | .range lo hi, .numeric vals =>
            build_mask input ui_filters df rest (List.zipWith and mask (between_mask vals lo hi))
          | _, _ => .error .typeError
      else if uf.filter_method = "list_isin" then
        match lookupS col df.cols with
        | none => .error (.keyError col)
        | some cd =>
          match input ("filter_" ++ col), cd with
          | .selected cats, .categorical vals =>
            build_mask input ui_filters df rest (List.zipWith and mask (isin_mask vals cats))
          | _, _ => .error .typeError
      else .error .valueError

/-- Keep the entries of `l` at the positions where `mask` is `true`. -/
def maskFilter {α : Type _} : List α → List Bool → List α
  | [], _ => []
  | _, [] => []
  | a :: t, b :: m => if b then a :: maskFilter t m else maskFilter t m

def maskCol (mask : List Bool) : ColData → ColData
  | .numeric vals => .numeric (maskFilter vals mask)
  | .categorical vals => .categorical (maskFilter vals mask)

/-- `df[mask]`: select the mask's rows from every column. -/
def applyMask (df : DF) (mask : List Bool) : DF :=
  { cols := df.cols.map (fun c => (c.1, maskCol mask c.2)) }

/-- Translated from `get_filtered_data` (`app-05c-modules.py`, lines 54-68):
start from the all-true mask over `df.index`, fold in each column's filter,
and return `df[mask]`. -/
def get_filtered_data (input : String → FilterState)
    (ui_filters : List (String × UIFilter)) (df : DF) (columns : List String) :
    Except PyErr DF :=
  match build_mask input ui_filters df columns (List.replicate df.nrows true) with
  | .error e => .error e
  | .ok mask => .ok (applyMask df mask)

/-- The initial widget values assigned by `create_ui_filters`: the value of
widget `filter_{col}` is the `init` field of the `ui_filters` entry for
`col`. -/
def initialInput (ufs : List (String × UIFilter)) (k : String) : FilterState :=
  match ufs with
  | [] => .selected []
  | (c, u) :: t => if "filter_" ++ c = k then u.init else initialInput t k

theorem lookupS_mem {α : Type _} {k : String} {l : List (String × α)} {v : α}
    (h : lookupS k l = some v) : (k, v) ∈ l := by
  induction l with
  | nil => cases h
  | cons q t ih =>
    obtain ⟨i, a⟩ := q
    by_cases hi : i = k
    · subst hi
      simp [lookupS] at h
      subst h
      exact List.mem_cons_self _ _
    · simp only [lookupS, if_neg hi] at h
      exact List.mem_cons_of_mem _ (ih h)

/-- What `create_ui_filters` stores for a column, characterised by the
column's dtype. -/
def ufSpec (df : DF) (col : String) (uf : UIFilter) : Prop :=
  match lookupS col df.cols with
  | some (.numeric vals) => uf = numericUF vals
  | some (.categorical vals) => uf = categoricalUF vals
  | none => False

theorem create_lookup {df : DF} : ∀ {columns : List String} {ufs},
    create_ui_filters df columns = .ok ufs →
    ∀ col ∈ columns, ∃ uf, lookupS col ufs = some uf ∧ ufSpec df col uf := by
  intro columns
  induction columns with
  | nil => intro ufs _ col hcol; simp at hcol
  | cons c rest ih =>
    intro ufs hc col hcol
    cases hl : lookupS c df.cols with
    | none => rw [create_ui_filters, hl] at hc; cases hc
    | some cd =>
      cases cd with
      | numeric vals =>
        rw [create_ui_filters, hl] at hc
        cases hrest : create_ui_filters df rest with
        | error e => rw [hrest] at hc; cases hc
        | ok ufs' =>
          rw [hrest] at hc
          simp only [Except.map, Except.ok.injEq] at hc
          subst hc
          rcases List.mem_cons.1 hcol with rfl | hmem
          · refine ⟨numericUF vals, by simp [lookupS], ?_⟩
            simp only [ufSpec, hl]
          · by_cases hcc : c = col
            · subst hcc
              refine ⟨numericUF vals, by simp [lookupS], ?_⟩
              simp only [ufSpec, hl]
            · obtain ⟨uf, h1, h2⟩ := ih hrest col hmem
              exact ⟨uf, by simp [lookupS, hcc, h1], h2⟩
      | categorical vals =>
        rw [create_ui_filters, hl] at hc
        cases hrest : create_ui_filters df rest with
        | error e => rw [hrest] at hc; cases hc
        | ok ufs' =>
          rw [hrest] at hc
          simp only [Except.map, Except.ok.injEq] at hc
          subst hc
          rcases List.mem_cons.1 hcol with rfl | hmem
          · refine ⟨categoricalUF vals, by simp [lookupS], ?_⟩
            simp only [ufSpec, hl]
          · by_cases hcc : c = col
            · subst hcc
              refine ⟨categoricalUF vals, by simp [lookupS], ?_⟩
              simp only [ufSpec, hl]
            · obtain ⟨uf, h1, h2⟩ := ih hrest col hmem
              exact ⟨uf, by simp [lookupS, hcc, h1], h2⟩

theorem create_entries {df : DF} : ∀ {columns : List String} {ufs},
    create_ui_filters df columns = .ok ufs →
    ∀ p ∈ ufs, p.2.filter_method = "sliders2_between" ∨ p.2.filter_method = "list_isin" := by
  intro columns
  induction columns with
  | nil =>
    intro ufs hc p hp
    rw [create_ui_filters] at hc
    cases hc
    simp at hp
  | cons c rest ih =>
    intro ufs hc p hp
    cases hl : lookupS c df.cols with
    | none => rw [create_ui_filters, hl] at hc; cases hc
    | some cd =>
      cases cd with
      | numeric vals =>
        rw [create_ui_filters, hl] at hc
        cases hrest : create_ui_filters df rest with
        | error e => rw [hrest] at hc; cases hc
        | ok ufs' =>
          rw [hrest] at hc
          simp only [Except.map, Except.ok.injEq] at hc
          subst hc
          rcases List.mem_cons.1 hp with rfl | hmem
          · exact Or.inl rfl
          · exact ih hrest p hmem
      | categorical vals =>
        rw [create_ui_filters, hl] at hc
        cases hrest : create_ui_filters df rest with
        | error e => rw [hrest] at hc; cases hc
        | ok ufs' =>
          rw [hrest] at hc
          simp only [Except.map, Except.ok.injEq] at hc
          subst hc
          rcases List.mem_cons.1 hp with rfl | hmem
          · exact Or.inr rfl
          · exact ih hrest p hmem

theorem build_mask_no_valueError (input : String → FilterState) (df : DF) :
    ∀ (columns : List String) (ufs : List (String × UIFilter)) (mask : List Bool),
    (∀ col ∈ columns, ∃ uf, lookupS col ufs = some uf ∧
      (uf.filter_method = "sliders2_between" ∨ uf.filter_method = "list_isin")) →
    build_mask input ufs df columns mask ≠ .error .valueError := by
  intro columns
  induction columns with
  | nil => intro ufs mask _ h; cases h
  | cons c rest ih =>
    intro ufs mask hcols h
    obtain ⟨uf, hl, hm⟩ := hcols c (List.mem_cons_self _ _)
    have hrest := fun col hcol => hcols col (List.mem_cons_of_mem _ hcol)
    rcases hm with hm | hm
    · simp only [build_mask, hl, if_pos hm] at h
      cases hd : lookupS c df.cols with
      | none => simp only [hd] at h; simp at h
      | some cd =>
        cases hin : input ("filter_" ++ c) with
        | range lo hi =>
          cases cd with
          | numeric vals =>
            simp only [hd, hin] at h
            exact ih ufs _ hrest h
          | categorical vals => simp only [hd, hin] at h; simp at h
        | selected cats =>
          cases cd <;> simp only [hd, hin] at h <;> simp at h
    · have hne : uf.filter_method ≠ "sliders2_between" := by
        rw [hm]; decide
      simp only [build_mask, hl, if_neg hne, if_pos hm] at h
      cases hd : lookupS c df.cols with
      | none => simp only [hd] at h; simp at h
      | some cd =>
        cases hin : input ("filter_" ++ c) with
        | range lo hi => cases cd <;> simp only [hd, hin] at h <;> simp at h
        | selected cats =>
          cases cd with
          | numeric vals => simp only [hd, hin] at h; simp at h
          | categorical vals =>
            simp only [hd, hin] at h
            exact ih ufs _ hrest h

theorem ufSpec_method {df : DF} {col : String} {uf : UIFilter} (h : ufSpec df col uf) :
    uf.filter_method = "sliders2_between" ∨ uf.filter_method = "list_isin" := by
  cases hl : lookupS col df.cols with
  | none => simp only [ufSpec, hl] at h
  | some cd =>
    cases cd with
    | numeric vals =>
      simp only [ufSpec, hl] at h
      exact Or.inl (by rw [h]; rfl)
    | categorical vals =>
      simp only [ufSpec, hl] at h
      exact Or.inr (by rw [h]; rfl)

/-- C9.  Unreachable error branch: every entry of the dictionary returned by
`create_ui_filters` carries `filter_method` equal to `"sliders2_between"` or
`"list_isin"`; consequently, running `get_filtered_data` over the same
columns with that dictionary never reaches its explicit `raise ValueError`
branch, whatever the widget values are. -/
theorem claim_C9_valueerror_unreachable (df : DF) (columns : List String)
    (ufs : List (String × UIFilter)) (hc : create_ui_filters df columns = .ok ufs) :
    (∀ p ∈ ufs, p.2.filter_method = "sliders2_between" ∨ p.2.filter_method = "list_isin") ∧
    (∀ input : String → FilterState,
      get_filtered_data input ufs df columns ≠ .error .valueError) := by
  refine ⟨create_entries hc, ?_⟩
  intro input h
  rw [get_filtered_data] at h
  cases hb : build_mask input ufs df columns (List.replicate df.nrows true) with
  | error e =>
    rw [hb] at h
    have he : e = .valueError := by
      injection h with h'
    subst he
    exact build_mask_no_valueError input df columns ufs _
      (fun col hcol =>
        let ⟨uf, h1, h2⟩ := create_lookup hc col hcol
        ⟨uf, h1, ufSpec_method h2⟩) hb
  | ok mask =>
    rw [hb] at h
    cases h

/-- A concrete dataframe: one categorical column and one numeric column. -/
def dfEx : DF :=
  { cols := [("species", .categorical ["Adelie", "Gentoo", "Adelie"]),
             ("bill", .numeric [35, 55, 45])] }

def colsEx : List String := ["species", "bill"]

/-- The dictionary `create_ui_filters` builds over `dfEx`. -/
def ufsEx : List (String × UIFilter) :=
  [("species", categoricalUF ["Adelie", "Gentoo", "Adelie"]),
   ("bill", numericUF [35, 55, 45])]

/-- Witness for C9 at a concrete input: the first entry's tag is one of the
two known strings, and even with ill-shaped widget values the explicit
`ValueError` is never produced. -/
theorem claim_C9_valueerror_unreachable_witness :
    (("species", categoricalUF ["Adelie", "Gentoo", "Adelie"]).2.filter_method =
        "sliders2_between" ∨
      ("species", categoricalUF ["Adelie", "Gentoo", "Adelie"]).2.filter_method =
        "list_isin") ∧
    get_filtered_data (fun _ => .range 0 0) ufsEx dfEx colsEx ≠ .error .valueError := by
  have h := claim_C9_valueerror_unreachable dfEx colsEx ufsEx rfl
  exact ⟨h.1 _ (by simp [ufsEx]), h.2 _⟩

theorem foldl_min_le (t : List Int) : ∀ x : Int, t.foldl min x ≤ x ∧ ∀ v ∈ t, t.foldl min x ≤ v := by
  induction t with
  | nil => intro x; exact ⟨le_refl x, by simp⟩
  | cons y t ih =>
    intro x
    have h := ih (min x y)
    rw [List.foldl_cons]
    refine ⟨h.1.trans (min_le_left x y), ?_⟩
    intro v hv
    rcases List.mem_cons.1 hv with rfl | hmem
    · exact h.1.trans (min_le_right x v)
    · exact h.2 v hmem

theorem foldl_max_ge (t : List Int) : ∀ x : Int, x ≤ t.foldl max x ∧ ∀ v ∈ t, v ≤ t.foldl max x := by
  induction t with
  | nil => intro x; exact ⟨le_refl x, by simp⟩
  | cons y t ih =>
    intro x
    have h := ih (max x y)
    rw [List.foldl_cons]
    refine ⟨(le_max_left x y).trans h.1, ?_⟩
    intro v hv
    rcases List.mem_cons.1 hv with rfl | hmem
    · exact (le_max_right x v).trans h.1
    · exact h.2 v hmem

theorem minList_le {l : List Int} : ∀ v ∈ l, minList l ≤ v := by
  cases l with
  | nil => simp
  | cons x t =>
    intro v hv
    rcases List.mem_cons.1 hv with rfl | hmem
    · exact (foldl_min_le t v).1
    · exact (foldl_min_le t x).2 v hmem

theorem le_maxList {l : List Int} : ∀ v ∈ l, v ≤ maxList l := by
  cases l with
  | nil => simp
  | cons x t =>
    intro v hv
    rcases List.mem_cons.1 hv with rfl | hmem
    · exact (foldl_max_ge t v).1
    · exact (foldl_max_ge t x).2 v hmem

theorem between_mask_true {vals : List Int} {lo hi : Int}
    (h : ∀ v ∈ vals, lo ≤ v ∧ v ≤ hi) :
    between_mask vals lo hi = List.replicate vals.length true := by
  induction vals with
  | nil => rfl
  | cons x t ih =>
    have hx := h x (List.mem_cons_self _ _)
    simp only [between_mask, List.map_cons, List.length_cons, List.replicate_succ]
    rw [decide_eq_true (by exact ⟨hx.1, hx.2⟩)]
    rw [show (t.map fun v => decide (lo ≤ v ∧ v ≤ hi)) = between_mask t lo hi from rfl,
      ih (fun v hv => h v (List.mem_cons_of_mem _ hv))]

theorem isin_mask_true {vals cats : List String} (h : ∀ v ∈ vals, v ∈ cats) :
    isin_mask vals cats = List.replicate vals.length true := by
  induction vals with
  | nil => rfl
  | cons x t ih =>
    simp only [isin_mask, List.map_cons, List.length_cons, List.replicate_succ]
    rw [decide_eq_true (h x (List.mem_cons_self _ _))]
    rw [show (t.map fun v => decide (v ∈ cats)) = isin_mask t cats from rfl,
      ih (fun v hv => h v (List.mem_cons_of_mem _ hv))]

theorem mem_uniqueSorted {v : String} {l : List String} : v ∈ uniqueSorted l ↔ v ∈ l := by
  simp [uniqueSorted, List.mem_mergeSort, List.mem_dedup]

theorem zipWith_and_replicate (n : Nat) :
    List.zipWith and (List.replicate n true) (List.replicate n true) = List.replicate n true := by
  induction n with
  | zero => rfl
  | succ k ih => simp only [List.replicate_succ, List.zipWith_cons_cons, ih, Bool.and_self]

theorem maskFilter_true {α : Type _} (l : List α) :
    maskFilter l (List.replicate l.length true) = l := by
  induction l with
  | nil => rfl
  | cons a t ih => simp only [List.length_cons, List.replicate_succ, maskFilter, if_pos, ih]

theorem maskFilter_sublist {α : Type _} : ∀ (l : List α) (m : List Bool),
    (maskFilter l m).Sublist l := by
  intro l
  induction l with
  | nil => intro m; cases m <;> simp [maskFilter]
  | cons a t ih =>
    intro m
    cases m with
    | nil => simp [maskFilter]
    | cons b mt =>
      cases b with
      | true =>
        simp only [maskFilter, if_pos]
        exact List.Sublist.cons₂ a (ih mt)
      | false =>
        simp only [maskFilter, if_neg]
        exact List.Sublist.cons a (ih mt)

theorem filterKey_inj {a b : String} (h : "filter_" ++ a = "filter_" ++ b) : a = b := by
  have h2 : ("filter_" ++ a).data = ("filter_" ++ b).data := congrArg String.data h
  rw [String.data_append, String.data_append] at h2
  exact String.ext (List.append_cancel_left h2)

theorem initialInput_lookup {ufs : List (String × UIFilter)} {col : String} {uf : UIFilter}
    (h : lookupS col ufs = some uf) :
    initialInput ufs ("filter_" ++ col) = uf.init := by
  induction ufs with
  | nil => cases h
  | cons q t ih =>
    obtain ⟨c, u⟩ := q
    by_cases hc : c = col
    · subst hc
      simp [lookupS] at h
      subst h
      simp [initialInput]
    · have hk : "filter_" ++ c ≠ "filter_" ++ col := fun hh => hc (filterKey_inj hh)
      simp only [lookupS, if_neg hc] at h
      simp only [initialInput, if_neg hk]
      exact ih h

theorem build_mask_initial (df : DF) (ufs : List (String × UIFilter)) (hwf : df.wf) :
    ∀ columns : List String,
    (∀ col ∈ columns, ∃ uf, lookupS col ufs = some uf ∧ ufSpec df col uf) →
    build_mask (initialInput ufs) ufs df columns (List.replicate df.nrows true) =
      .ok (List.replicate df.nrows true) := by
  intro columns
  induction columns with
  | nil => intro _; rfl
  | cons c rest ih =>
    intro hcols
    obtain ⟨uf, hl, hspec⟩ := hcols c (List.mem_cons_self _ _)
    have hrest := fun col hcol => hcols col (List.mem_cons_of_mem _ hcol)
    have hin : initialInput ufs ("filter_" ++ c) = uf.init := initialInput_lookup hl
    cases hd : lookupS c df.cols with
    | none => simp only [ufSpec, hd] at hspec
    | some cd =>
      cases cd with
      | numeric vals =>
        simp only [ufSpec, hd] at hspec
        subst hspec
        have hlen : vals.length = df.nrows := by
          have := hwf _ (lookupS_mem hd)
          simpa [colLen] using this
        have hbet : between_mask vals (minList vals) (maxList vals) =
            List.replicate df.nrows true := by
          rw [between_mask_true (fun v hv => ⟨minList_le v hv, le_maxList v hv⟩), hlen]
        simp only [build_mask, hl, numericUF, if_pos, hd, hin]
        rw [hbet, zipWith_and_replicate]
        exact ih hrest
      | categorical vals =>
        simp only [ufSpec, hd] at hspec
        subst hspec
        have hlen : vals.length = df.nrows := by
          have := hwf _ (lookupS_mem hd)
          simpa [colLen] using this
        have hisin : isin_mask vals (uniqueSorted vals) = List.replicate df.nrows true := by
          rw [isin_mask_true (fun v hv => mem_uniqueSorted.2 hv), hlen]
        simp only [build_mask, hl, categoricalUF, hd, hin, if_true]
        rw [hisin, zipWith_and_replicate]
        exact ih hrest

theorem map_self {α : Type _} {f : α → α} : ∀ {l : List α}, (∀ x ∈ l, f x = x) → l.map f = l := by
  intro l
  induction l with
  | nil => intro _; rfl
  | cons a t ih =>
    intro h
    simp only [List.map_cons, h a (List.mem_cons_self _ _)]
    rw [ih (fun x hx => h x (List.mem_cons_of_mem _ hx))]

theorem applyMask_full (df : DF) (hwf : df.wf) :
    applyMask df (List.replicate df.nrows true) = df := by
  obtain ⟨cols⟩ := df
  simp only [applyMask, DF.mk.injEq]
  apply map_self
  intro c hc
  have hlen : colLen c.2 = DF.nrows ⟨cols⟩ := hwf c hc
  obtain ⟨name, cd⟩ := c
  cases cd with
  | numeric vals =>
    simp only [colLen] at hlen
    simp only [maskCol, ← hlen, maskFilter_true]
  | categorical vals =>
    simp only [colLen] at hlen
    simp only [maskCol, ← hlen, maskFilter_true]

/-- Row-order-preserving column subset. -/
def colSub : ColData → ColData → Prop
  | .numeric a, .numeric b => a.Sublist b
  | .categorical a, .categorical b => a.Sublist b
  | _, _ => False

theorem forall2_map {α β : Type _} {R : β → α → Prop} {f : α → β} :
    ∀ {l : List α}, (∀ x ∈ l, R (f x) x) → List.Forall₂ R (l.map f) l := by
  intro l
  induction l with
  | nil => intro _; exact List.Forall₂.nil
  | cons a t ih =>
    intro h
    exact List.Forall₂.cons (h a (List.mem_cons_self _ _))
      (ih (fun x hx => h x (List.mem_cons_of_mem _ hx)))

/-- C10.  Identity at the initial filter state, and order-preserving subset in
general: with every widget at the initial value `create_ui_filters` assigns
(full numeric range, all unique categories selected), `get_filtered_data`
returns the whole dataframe unchanged; and for every widget state, a
successful result has exactly the source's columns, each a row-subsequence of
the source column (row order preserved). -/
theorem claim_C10_identity_and_subset (df : DF) (columns : List String)
    (ufs : List (String × UIFilter)) (hwf : df.wf)
    (hc : create_ui_filters df columns = .ok ufs) :
    get_filtered_data (initialInput ufs) ufs df columns = .ok df ∧
    (∀ (input : String → FilterState) (out : DF),
      get_filtered_data input ufs df columns = .ok out →
      List.Forall₂ (fun c d => c.1 = d.1 ∧ colSub c.2 d.2) out.cols df.cols) := by
  constructor
  · rw [get_filtered_data, build_mask_initial df ufs hwf columns (create_lookup hc)]
    show Except.ok (applyMask df (List.replicate df.nrows true)) = .ok df
    rw [applyMask_full df hwf]
  · intro input out h
    rw [get_filtered_data] at h
    cases hb : build_mask input ufs df columns (List.replicate df.nrows true) with
    | error e =>
      rw [hb] at h
      cases h
    | ok mask =>
      rw [hb] at h
      have hout : out = applyMask df mask := by
        injection h with h'
        exact h'.symm
      subst hout
      apply forall2_map
      intro c _
      obtain ⟨name, cd⟩ := c
      refine ⟨rfl, ?_⟩
      cases cd with
      | numeric vals => exact maskFilter_sublist vals mask
      | categorical vals => exact maskFilter_sublist vals mask

/-- Witness for C10 at a concrete input: at the initial widget values the
whole concrete dataframe comes back unchanged, and it is (trivially) a
row-subset of itself column by column. -/
theorem claim_C10_identity_and_subset_witness :
    get_filtered_data (initialInput ufsEx) ufsEx dfEx colsEx = .ok dfEx ∧
    List.Forall₂ (fun c d => c.1 = d.1 ∧ colSub c.2 d.2) dfEx.cols dfEx.cols := by
  have h := claim_C10_identity_and_subset dfEx colsEx ufsEx (by unfold DF.wf; decide) rfl
  exact ⟨h.1, h.2 (initialInput ufsEx) dfEx h.1⟩

end Filters
